import Mathlib

/-!
# MD4 (src/lib/md4.c): a shallow embedding and its verification

The C functions of `md4.c` are embedded as Lean functions over natural numbers
and lists of bytes.

* A machine integer is a `Nat`; every store into a sized object reduces it
  modulo the width of that object.
* The widths of `uint_fast32_t` and `size_t` and the choice between the two
  `SET`/`GET` variants depend on the compilation target; they are parameters of
  the embedding (`Platform`), and every statement holds for all of them.
* A pointer into caller memory is the list of bytes readable from it; an access
  outside that list, or outside the 64 bytes of `ctx->buffer`, is undefined
  behaviour and makes the embedded function return `none`.
* The context carries a ghost `trace` of the buffer writes, `body` calls and
  compressed blocks, so that statements about *what the code did* can be made.
-/

namespace MD4

/-! ## Machine model -/

/-- An `unsigned char`. -/
abbrev Byte := Fin 256

/-- Conversion of an unsigned integer to `unsigned char`: the low eight bits. -/
def toByte (x : Nat) : Byte := ⟨x % 256, Nat.mod_lt x (by decide)⟩

/-- Compile-time facts the code depends on but does not fix: the width of
`uint_fast32_t` (at least 32 bits), the common width of `size_t` and
`unsigned long`, and whether the little-endian, unaligned-tolerant branch of the
`#if` around `SET`/`GET` is the one compiled. -/
structure Platform where
  fast32_bits : Nat
  size_bits : Nat
  unaligned_le : Bool
  fast32_ge : 32 ≤ fast32_bits
  size_ge : 16 ≤ size_bits

/-- Subtraction of `size_t` / `unsigned long` values: it wraps around. -/
def wsub (P : Platform) (x y : Nat) : Nat :=
  if y ≤ x then x - y else x + 2 ^ P.size_bits - y

/-- The expression `x & ~0x3fUL`: the low six bits are cleared (`unsigned long` is
taken to be as wide as `size_t`, see `Platform`). -/
def clear_low6 (x : Nat) : Nat := x - (x &&& 0x3f)

/-- Ghost events recorded while the code runs. -/
inductive Event where
  /-- A store, `memcpy` or `memset` into `ctx->buffer[off .. off + len)`. -/
  | write (off len : Nat)
  /-- A call `body(ctx, data, size)` with `avail` bytes readable at `data`. -/
  | call (avail size : Nat)
  /-- One iteration of the loop of `body`, on this block. -/
  | compress (blk : List Byte)
deriving DecidableEq

/-- The 64-byte array `ctx->buffer`. -/
abbrev Buffer := { l : List Byte // l.length = 64 }

/-- Modelled from the spec: `struct md4_context` is declared in `md4.h`, which is
not among the sources. The fields are those the code uses: the counter limbs
`lo`, `hi`, the state words `a`, `b`, `c`, `d`, the 64-byte `buffer` and the
scratch array `block` of the portable `SET`. The numeric fields are
`uint_fast32_t`; a `Nat` here. `trace` is ghost state, not a field of the C
structure. -/
structure md4_context where
  lo : Nat
  hi : Nat
  a : Nat
  b : Nat
  c : Nat
  d : Nat
  buffer : Buffer
  block : Fin 16 → Nat
  trace : List Event

/-- The local variables `a`, `b`, `c`, `d` of `body` (each a `uint32_t`). -/
structure Regs where
  a : Nat
  b : Nat
  c : Nat
  d : Nat
deriving DecidableEq

/-- Sixty-four zero bytes. -/
def zero_buffer : Buffer := ⟨List.replicate 64 0, by simp⟩

/-- Appends an event to the ghost trace. -/
@[noinline]
def log (ctx : md4_context) (e : Event) : md4_context :=
  { ctx with trace := ctx.trace ++ [e] }

/-- The store `ctx->buffer[i] = v`. -/
@[noinline]
def buf_store (ctx : md4_context) (i : Nat) (v : Byte) : Option md4_context :=
  if i < 64 then
    some (log { ctx with buffer := ⟨ctx.buffer.val.set i v, by simp [ctx.buffer.property]⟩ }
      (Event.write i 1))
  else none

/-- The call `memcpy(&ctx->buffer[off], src, n)`. -/
@[noinline]
def buf_memcpy (ctx : md4_context) (off : Nat) (src : List Byte) (n : Nat) :
    Option md4_context :=
  if h : off + n ≤ 64 ∧ n ≤ src.length then
    some (log { ctx with buffer :=
      ⟨ctx.buffer.val.take off ++ src.take n ++ ctx.buffer.val.drop (off + n), by
        have hb := ctx.buffer.property
        simp only [List.length_append, List.length_take, List.length_drop, hb]
        omega⟩ } (Event.write off n))
  else none

/-- The call `memset(&ctx->buffer[off], v, n)`. -/
@[noinline]
def buf_memset (ctx : md4_context) (off : Nat) (v : Byte) (n : Nat) : Option md4_context :=
  if h : off + n ≤ 64 then
    some (log { ctx with buffer :=
      ⟨ctx.buffer.val.take off ++ List.replicate n v ++ ctx.buffer.val.drop (off + n), by
        have hb := ctx.buffer.property
        simp only [List.length_append, List.length_take, List.length_drop,
          List.length_replicate, hb]
        omega⟩ } (Event.write off n))
  else none

/-! ## The basic MD4 functions and the step -/

/-- The macro `F`. -/
def F (x y z : Nat) : Nat := z ^^^ (x &&& (y ^^^ z))

/-- The macro `G`. -/
def G (x y z : Nat) : Nat := (x &&& y) ||| (x &&& z) ||| (y &&& z)

/-- The macro `H`. -/
def H (x y z : Nat) : Nat := x ^^^ y ^^^ z

/-- The macro `STEP(f, a, b, c, d, x, s)`; the value is the new `a`, a `uint32_t`. -/
def STEP (f : Nat → Nat → Nat → Nat) (a b c d x s : Nat) : Nat :=
  let a := (a + (f b c d + x)) % 2 ^ 32
  ((a <<< s) ||| (a >>> (32 - s))) % 2 ^ 32

/-- The load `*(const uint32_t *)&ptr[n * 4]` on a little-endian host. -/
def load_le32 (ptr : List Byte) (n : Nat) : Nat :=
  (ptr.getD (n * 4) 0).val + 2 ^ 8 * (ptr.getD (n * 4 + 1) 0).val
    + 2 ^ 16 * (ptr.getD (n * 4 + 2) 0).val + 2 ^ 24 * (ptr.getD (n * 4 + 3) 0).val

/-- The byte-by-byte assembly of the portable `SET`. -/
def assemble_le32 (ptr : List Byte) (n : Nat) : Nat :=
  (ptr.getD (n * 4) 0).val ||| ((ptr.getD (n * 4 + 1) 0).val <<< 8)
    ||| ((ptr.getD (n * 4 + 2) 0).val <<< 16) ||| ((ptr.getD (n * 4 + 3) 0).val <<< 24)

/-- The macro `SET(n)`: the word read, and `ctx->block` after it. -/
def SET (P : Platform) (block : Fin 16 → Nat) (ptr : List Byte) (n : Fin 16) :
    Nat × (Fin 16 → Nat) :=
  if P.unaligned_le then (load_le32 ptr n.val, block)
  else (assemble_le32 ptr n.val, Function.update block n (assemble_le32 ptr n.val))

/-- The macro `GET(n)`. -/
def GET (P : Platform) (block : Fin 16 → Nat) (ptr : List Byte) (n : Fin 16) : Nat :=
  if P.unaligned_le then load_le32 ptr n.val else block n

/-! ## The compression loop `body` -/

/-- Round 1 of one loop iteration of `body`: sixteen `STEP(F, ..., SET(n), s)`. The
result is the four locals and `ctx->block` (which only the portable `SET` writes). -/
def round1 (P : Platform) (r : Regs) (block : Fin 16 → Nat) (ptr : List Byte) :
    Regs × (Fin 16 → Nat) :=
  let a := r.a
  let b := r.b
  let c := r.c
  let d := r.d
  let x := SET P block ptr 0
  let block := x.2
  let a := STEP F a b c d x.1 3
  let x := SET P block ptr 1
  let block := x.2
  let d := STEP F d a b c x.1 7
  let x := SET P block ptr 2
  let block := x.2
  let c := STEP F c d a b x.1 11
  let x := SET P block ptr 3
  let block := x.2
  let b := STEP F b c d a x.1 19
  let x := SET P block ptr 4
  let block := x.2
  let a := STEP F a b c d x.1 3
  let x := SET P block ptr 5
  let block := x.2
  let d := STEP F d a b c x.1 7
  let x := SET P block ptr 6
  let block := x.2
  let c := STEP F c d a b x.1 11
  let x := SET P block ptr 7
  let block := x.2
  let b := STEP F b c d a x.1 19
  let x := SET P block ptr 8
  let block := x.2
  let a := STEP F a b c d x.1 3
  let x := SET P block ptr 9
  let block := x.2
  let d := STEP F d a b c x.1 7
  let x := SET P block ptr 10
  let block := x.2
  let c := STEP F c d a b x.1 11
  let x := SET P block ptr 11
  let block := x.2
  let b := STEP F b c d a x.1 19
  let x := SET P block ptr 12
  let block := x.2
  let a := STEP F a b c d x.1 3
  let x := SET P block ptr 13
  let block := x.2
  let d := STEP F d a b c x.1 7
  let x := SET P block ptr 14
  let block := x.2
  let c := STEP F c d a b x.1 11
  let x := SET P block ptr 15
  let block := x.2
  let b := STEP F b c d a x.1 19
  (⟨a, b, c, d⟩, block)

/-- Round 2 of one loop iteration of `body`: sixteen `STEP(G, ..., GET(n) + 0x5A827999, s)`. -/
def round2 (P : Platform) (r : Regs) (block : Fin 16 → Nat) (ptr : List Byte) : Regs :=
  let a := r.a
  let b := r.b
  let c := r.c
  let d := r.d
  let a := STEP G a b c d (GET P block ptr 0 + 0x5A827999) 3
  let d := STEP G d a b c (GET P block ptr 4 + 0x5A827999) 5
  let c := STEP G c d a b (GET P block ptr 8 + 0x5A827999) 9
  let b := STEP G b c d a (GET P block ptr 12 + 0x5A827999) 13
  let a := STEP G a b c d (GET P block ptr 1 + 0x5A827999) 3
  let d := STEP G d a b c (GET P block ptr 5 + 0x5A827999) 5
  let c := STEP G c d a b (GET P block ptr 9 + 0x5A827999) 9
  let b := STEP G b c d a (GET P block ptr 13 + 0x5A827999) 13
  let a := STEP G a b c d (GET P block ptr 2 + 0x5A827999) 3
  let d := STEP G d a b c (GET P block ptr 6 + 0x5A827999) 5
  let c := STEP G c d a b (GET P block ptr 10 + 0x5A827999) 9
  let b := STEP G b c d a (GET P block ptr 14 + 0x5A827999) 13
  let a := STEP G a b c d (GET P block ptr 3 + 0x5A827999) 3
  let d := STEP G d a b c (GET P block ptr 7 + 0x5A827999) 5
  let c := STEP G c d a b (GET P block ptr 11 + 0x5A827999) 9
  let b := STEP G b c d a (GET P block ptr 15 + 0x5A827999) 13
  ⟨a, b, c, d⟩

/-- Round 3 of one loop iteration of `body`: sixteen `STEP(H, ..., GET(n) + 0x6ED9EBA1, s)`. -/
def round3 (P : Platform) (r : Regs) (block : Fin 16 → Nat) (ptr : List Byte) : Regs :=
  let a := r.a
  let b := r.b
  let c := r.c
  let d := r.d
  let a := STEP H a b c d (GET P block ptr 0 + 0x6ED9EBA1) 3
  let d := STEP H d a b c (GET P block ptr 8 + 0x6ED9EBA1) 9
  let c := STEP H c d a b (GET P block ptr 4 + 0x6ED9EBA1) 11
  let b := STEP H b c d a (GET P block ptr 12 + 0x6ED9EBA1) 15
  let a := STEP H a b c d (GET P block ptr 2 + 0x6ED9EBA1) 3
  let d := STEP H d a b c (GET P block ptr 10 + 0x6ED9EBA1) 9
  let c := STEP H c d a b (GET P block ptr 6 + 0x6ED9EBA1) 11
  let b := STEP H b c d a (GET P block ptr 14 + 0x6ED9EBA1) 15
  let a := STEP H a b c d (GET P block ptr 1 + 0x6ED9EBA1) 3
  let d := STEP H d a b c (GET P block ptr 9 + 0x6ED9EBA1) 9
  let c := STEP H c d a b (GET P block ptr 5 + 0x6ED9EBA1) 11
  let b := STEP H b c d a (GET P block ptr 13 + 0x6ED9EBA1) 15
  let a := STEP H a b c d (GET P block ptr 3 + 0x6ED9EBA1) 3
  let d := STEP H d a b c (GET P block ptr 11 + 0x6ED9EBA1) 9
  let c := STEP H c d a b (GET P block ptr 7 + 0x6ED9EBA1) 11
  let b := STEP H b c d a (GET P block ptr 15 + 0x6ED9EBA1) 15
  ⟨a, b, c, d⟩

/-- One iteration of the `do ... while` loop of `body`, without the pointer and
size bookkeeping: save the locals, run the three rounds on the 64 bytes at `ptr`,
add the saved values back. -/
def body_block (P : Platform) (r : Regs) (block : Fin 16 → Nat) (ptr : List Byte) :
    Regs × (Fin 16 → Nat) :=
  let saved_a := r.a
  let saved_b := r.b
  let saved_c := r.c
  let saved_d := r.d
  let r1 := round1 P r block ptr
  let r2 := round2 P r1.1 r1.2 ptr
  let r3 := round3 P r2 r1.2 ptr
  (⟨(r3.a + saved_a) % 2 ^ 32, (r3.b + saved_b) % 2 ^ 32, (r3.c + saved_c) % 2 ^ 32,
    (r3.d + saved_d) % 2 ^ 32⟩, r1.2)

/-- The `do ... while ((size -= 64) != 0)` loop of `body`. Reading 64 bytes where
fewer are readable is undefined behaviour (`none`). Each iteration that returns
consumes 64 readable bytes, so `fuel = ptr.length / 64 + 1` is never exhausted. -/
def body_loop (P : Platform) :
    Nat → Regs → md4_context → List Byte → Nat → Option (Regs × md4_context × List Byte)
  | 0, _, _, _, _ => none
  | fuel + 1, r, ctx, ptr, size =>
    if ptr.length < 64 then none
    else
      let rb := body_block P r ctx.block ptr
      let ctx := log { ctx with block := rb.2 } (Event.compress (ptr.take 64))
      let ptr := ptr.drop 64
      let size := wsub P size 64
      if size ≠ 0 then body_loop P fuel rb.1 ctx ptr size
      else some (rb.1, ctx, ptr)

/-- The function `body(ctx, data, size)`: the context after it and the returned
pointer (the bytes still readable from it). -/
@[noinline]
def body (P : Platform) (ctx : md4_context) (data : List Byte) (size : Nat) :
    Option (md4_context × List Byte) :=
  let ctx := log ctx (Event.call data.length size)
  let r : Regs := ⟨ctx.a % 2 ^ 32, ctx.b % 2 ^ 32, ctx.c % 2 ^ 32, ctx.d % 2 ^ 32⟩
  (body_loop P (data.length / 64 + 1) r ctx data size).map fun out =>
    ({ out.2.1 with a := out.1.a, b := out.1.b, c := out.1.c, d := out.1.d }, out.2.2)

/-! ## The public functions -/

/-- The function `md4_init`. The buffer (and `block`) are left as they were. -/
def md4_init (ctx : md4_context) : md4_context :=
  { ctx with a := 0x67452301, b := 0xefcdab89, c := 0x98badcfe, d := 0x10325476,
             lo := 0, hi := 0 }

/-- Lines 208 to 213 of `md4_update`: compress the whole blocks of `data` in place,
then copy what is left into the buffer. -/
def md4_update_rest (P : Platform) (ctx : md4_context) (data : List Byte) (size : Nat) :
    Option md4_context :=
  if size ≥ 64 then
    (body P ctx data (clear_low6 size)).bind fun r =>
      buf_memcpy r.1 0 r.2 (size &&& 0x3f)
  else buf_memcpy ctx 0 data size

/-- Lines 187 to 190 of `md4_update`: the update of the two counter limbs. The sum
`saved_lo + size` is masked to 29 bits, so the width it is computed in (at least
32 bits) does not matter. -/
def md4_update_counter (P : Platform) (ctx : md4_context) (size : Nat) : md4_context :=
  let saved_lo := ctx.lo
  let lo := (saved_lo + size) &&& 0x1fffffff
  let ctx := { ctx with lo := lo }
  let ctx := if lo < saved_lo then { ctx with hi := (ctx.hi + 1) % 2 ^ P.fast32_bits } else ctx
  { ctx with hi := (ctx.hi + (size >>> 29)) % 2 ^ P.fast32_bits }

/-- The function `md4_update(ctx, data, size)`, with `size = data.length`. -/
def md4_update (P : Platform) (ctx : md4_context) (data : List Byte) : Option md4_context :=
  let size := data.length
  if size = 0 then some ctx
  else
    let saved_lo := ctx.lo
    let ctx := md4_update_counter P ctx size
    let used := saved_lo &&& 0x3f
    if used ≠ 0 then
      let free := wsub P 64 used
      if size < free then buf_memcpy ctx used data size
      else
        (buf_memcpy ctx used data free).bind fun ctx =>
          let data := data.drop free
          let size := wsub P size free
          (body P ctx ctx.buffer.val 64).bind fun r =>
            md4_update_rest P r.1 data size
    else md4_update_rest P ctx data size

/-- Modelled from the spec: `i_zero_safe` comes from `safe-memset.h`, which is not
among the sources; section 6 of the spec describes it as overwriting the whole
region with zero bytes. The ghost trace is not part of that region. -/
def i_zero_safe (ctx : md4_context) : md4_context :=
  { lo := 0, hi := 0, a := 0, b := 0, c := 0, d := 0, buffer := zero_buffer,
    block := fun _ => 0, trace := ctx.trace }

/-- Lines 250 to 265 of `md4_final`: the sixteen stores into `result`, each the
conversion of a shifted state word to `unsigned char`. -/
def md4_result (ctx : md4_context) : List Byte :=
  [toByte ctx.a, toByte (ctx.a >>> 8), toByte (ctx.a >>> 16), toByte (ctx.a >>> 24),
    toByte ctx.b, toByte (ctx.b >>> 8), toByte (ctx.b >>> 16), toByte (ctx.b >>> 24),
    toByte ctx.c, toByte (ctx.c >>> 8), toByte (ctx.c >>> 16), toByte (ctx.c >>> 24),
    toByte ctx.d, toByte (ctx.d >>> 8), toByte (ctx.d >>> 16), toByte (ctx.d >>> 24)]

/-- Lines 236 to 267 of `md4_final`: zero-fill up to offset 56, store the length,
compress, write the digest, erase the context. -/
def md4_final_rest (P : Platform) (ctx : md4_context) (used free : Nat) :
    Option (List Byte × md4_context) :=
  (buf_memset ctx used 0 (wsub P free 8)).bind fun ctx =>
  let ctx := { ctx with lo := (ctx.lo <<< 3) % 2 ^ P.fast32_bits }
  (buf_store ctx 56 (toByte ctx.lo)).bind fun ctx =>
  (buf_store ctx 57 (toByte (ctx.lo >>> 8))).bind fun ctx =>
  (buf_store ctx 58 (toByte (ctx.lo >>> 16))).bind fun ctx =>
  (buf_store ctx 59 (toByte (ctx.lo >>> 24))).bind fun ctx =>
  (buf_store ctx 60 (toByte ctx.hi)).bind fun ctx =>
  (buf_store ctx 61 (toByte (ctx.hi >>> 8))).bind fun ctx =>
  (buf_store ctx 62 (toByte (ctx.hi >>> 16))).bind fun ctx =>
  (buf_store ctx 63 (toByte (ctx.hi >>> 24))).bind fun ctx =>
  (body P ctx ctx.buffer.val 64).bind fun r =>
  let ctx := r.1
  let result := md4_result ctx
  some (result, i_zero_safe ctx)

/-- The function `md4_final(ctx, result)`: the sixteen bytes written to `result`
and the context left behind. -/
def md4_final (P : Platform) (ctx : md4_context) : Option (List Byte × md4_context) :=
  let used := ctx.lo &&& 0x3f
  (buf_store ctx used 0x80).bind fun ctx =>
  let used := used + 1
  let free := wsub P 64 used
  if free < 8 then
    (buf_memset ctx used 0 free).bind fun ctx =>
    (body P ctx ctx.buffer.val 64).bind fun r =>
    md4_final_rest P r.1 0 64
  else md4_final_rest P ctx used free

/-- The function `md4_get_digest(data, size, result)`. Its local context is not
initialised by the declaration; `stack` is what that storage happens to hold. -/
def md4_get_digest (P : Platform) (stack : md4_context) (data : List Byte) :
    Option (List Byte) :=
  ((md4_update P (md4_init stack) data).bind (md4_final P)).map Prod.fst

/-- The calls `md4_update(c1); ...; md4_update(ck)` in sequence. -/
def md4_updates (P : Platform) : md4_context → List (List Byte) → Option md4_context
  | ctx, [] => some ctx
  | ctx, c :: cs => (md4_update P ctx c).bind fun ctx => md4_updates P ctx cs

/-- The streaming use: `md4_init`, one `md4_update` per chunk, `md4_final`; the
value is the digest. -/
def md4_stream (P : Platform) (ctx : md4_context) (chunks : List (List Byte)) :
    Option (List Byte) :=
  ((md4_updates P (md4_init ctx) chunks).bind (md4_final P)).map Prod.fst

/-! ## Test harness values -/

/-- The LP64 little-endian configuration (x86-64 with glibc). -/
def lp64 : Platform := ⟨64, 64, true, by decide, by decide⟩

/-- A context whose storage is all zero, with an empty trace. -/
def zero_context : md4_context :=
  ⟨0, 0, 0, 0, 0, 0, zero_buffer, fun _ => 0, []⟩

/-- The bytes of an ASCII string. -/
def ascii (s : String) : List Byte := s.toList.map fun ch => toByte ch.toNat

/-- Lower-case hexadecimal digit. -/
def hex_digit (n : Nat) : Char := "0123456789abcdef".toList.getD n '0'

/-- Lower-case hexadecimal rendering of a byte list. -/
def hex (l : List Byte) : String :=
  String.mk (l.flatMap fun x => [hex_digit (x.val / 16), hex_digit (x.val % 16)])

/-! ## Specification-level definitions -/

/-- The four state words of a context. -/
def regs (ctx : md4_context) : Regs := ⟨ctx.a, ctx.b, ctx.c, ctx.d⟩

/-- The four state words of a context as `body` loads them into its `uint32_t`
locals. -/
def regs32 (ctx : md4_context) : Regs :=
  ⟨ctx.a % 2 ^ 32, ctx.b % 2 ^ 32, ctx.c % 2 ^ 32, ctx.d % 2 ^ 32⟩

/-- Four words that each fit in 32 bits. -/
def Regs.bounded (r : Regs) : Prop :=
  r.a < 2 ^ 32 ∧ r.b < 2 ^ 32 ∧ r.c < 2 ^ 32 ∧ r.d < 2 ^ 32

/-- The single-block compression transform: one loop iteration of `body` as a
function from the state words and a 64-byte block to the new state words. -/
def md4_compress (P : Platform) (r : Regs) (blk : List Byte) : Regs :=
  (body_block P r (fun _ => 0) blk).1

/-- The first `k` consecutive 64-byte blocks of a byte list. -/
def chunks64 : Nat → List Byte → List (List Byte)
  | 0, _ => []
  | k + 1, l => l.take 64 :: chunks64 k (l.drop 64)

/-- The compression transform folded over the first `k` blocks of `l`. -/
def absorb (P : Platform) (k : Nat) (r : Regs) (l : List Byte) : Regs :=
  (chunks64 k l).foldl (md4_compress P) r

/-- The initial state of RFC 1320. -/
def md4_iv : Regs := ⟨0x67452301, 0xefcdab89, 0x98badcfe, 0x10325476⟩

/-- The `k`-byte little-endian encoding of a number. -/
def le_bytes : Nat → Nat → List Byte
  | 0, _ => []
  | k + 1, x => toByte x :: le_bytes k (x / 256)

/-- The number of zero bytes of the padding of a message of `n` bytes: the fewest
that make `n + 1 + z` congruent to 56 modulo 64. -/
def pad_zeros (n : Nat) : Nat := (119 - n % 64) % 64

/-- The padded message of RFC 1320: the message, the byte `0x80`, the zero fill and
the 8-byte little-endian bit length modulo `2 ^ 64`. -/
def md4_pad (m : List Byte) : List Byte :=
  m ++ [0x80] ++ List.replicate (pad_zeros m.length) (0 : Byte) ++ le_bytes 8 (8 * m.length % 2 ^ 64)

/-- The split of a byte list into its 64-byte blocks. -/
def split_blocks (l : List Byte) : List (List Byte) := chunks64 (l.length / 64) l

/-- The little-endian serialization of four words. -/
def serialize (r : Regs) : List Byte :=
  le_bytes 4 r.a ++ le_bytes 4 r.b ++ le_bytes 4 r.c ++ le_bytes 4 r.d

/-- The reference MD4 of RFC 1320: pad, split into blocks, fold the compression
transform from the initial state, serialize. -/
def md4_reference (P : Platform) (m : List Byte) : List Byte :=
  serialize ((split_blocks (md4_pad m)).foldl (md4_compress P) md4_iv)

/-- The eight bytes `md4_final` stores at offsets 56 to 63: those of `lo << 3`
(as stored back into `ctx->lo`) and of `hi`, least significant first. -/
def length_bytes (P : Platform) (ctx : md4_context) : List Byte :=
  let bits := (ctx.lo <<< 3) % 2 ^ P.fast32_bits
  [toByte bits, toByte (bits >>> 8), toByte (bits >>> 16), toByte (bits >>> 24),
    toByte ctx.hi, toByte (ctx.hi >>> 8), toByte (ctx.hi >>> 16), toByte (ctx.hi >>> 24)]

/-- The bytes `md4_final` appends to the pending bytes of the buffer: the marker,
the zero fill and the eight length bytes. -/
def final_tail (P : Platform) (ctx : md4_context) : List Byte :=
  let used := ctx.lo % 64
  ([0x80] : List Byte) ++ List.replicate (if used < 56 then 55 - used else 119 - used) (0 : Byte)
    ++ length_bytes P ctx

/-- The valid bytes of the buffer: its first `lo & 0x3f` bytes. -/
def pending (ctx : md4_context) : List Byte := ctx.buffer.val.take (ctx.lo % 64)

/-- The pending bytes of the buffer followed by what `md4_final` appends: the one
or two blocks that `md4_final` compresses. -/
def final_input (P : Platform) (ctx : md4_context) : List Byte :=
  pending ctx ++ final_tail P ctx

/-- The erased context: all storage zero, with the given ghost trace. -/
def erased (tr : List Event) : md4_context :=
  ⟨0, 0, 0, 0, 0, 0, zero_buffer, fun _ => 0, tr⟩

/-- The events of lines 236 to 248 of `md4_final`: the zero fill from `used` up to
offset 56, the eight stores of the length bytes, the call of `body` on the buffer
`blk`. -/
def final_rest_trace (used : Nat) (blk : List Byte) : List Event :=
  [Event.write used (56 - used), Event.write 56 1, Event.write 57 1, Event.write 58 1,
    Event.write 59 1, Event.write 60 1, Event.write 61 1, Event.write 62 1, Event.write 63 1,
    Event.call 64 64, Event.compress blk]

/-- The events of `md4_final` on a context whose pending bytes followed by the
padding are `x` (64 or 128 bytes). -/
def final_trace (used : Nat) (x : List Byte) : List Event :=
  if used < 56 then Event.write used 1 :: final_rest_trace (used + 1) x
  else
    [Event.write used 1, Event.write (used + 1) (63 - used), Event.call 64 64,
      Event.compress (x.take 64)] ++ final_rest_trace 0 (x.drop 64)

/-- The invariant of the streaming interface: `ctx` is what `md4_init` and
`md4_update` calls absorbing the bytes `m` lead to. -/
structure Absorbed (P : Platform) (ctx : md4_context) (m : List Byte) : Prop where
  lo_eq : ctx.lo = m.length % 2 ^ 29
  hi_eq : ctx.hi = (m.length / 2 ^ 29) % 2 ^ P.fast32_bits
  regs_eq : regs ctx = absorb P (m.length / 64) md4_iv m
  buf_eq : ctx.buffer.val.take (m.length % 64) = m.drop (64 * (m.length / 64))

/-- What a write of `bytes` at offset `off` of the buffer changes. -/
structure Wrote (ctx : md4_context) (off : Nat) (bytes : List Byte) (ctx' : md4_context) :
    Prop where
  lo_eq : ctx'.lo = ctx.lo
  hi_eq : ctx'.hi = ctx.hi
  regs_eq : regs ctx' = regs ctx
  block_eq : ctx'.block = ctx.block
  buf_eq : ctx'.buffer.val =
    ctx.buffer.val.take off ++ bytes ++ ctx.buffer.val.drop (off + bytes.length)
  trace_eq : ctx'.trace = ctx.trace ++ [Event.write off bytes.length]

/-- What a call of `body` on `k` blocks of `data` changes. -/
structure Compressed (P : Platform) (ctx : md4_context) (data : List Byte) (k : Nat)
    (ctx' : md4_context) : Prop where
  lo_eq : ctx'.lo = ctx.lo
  hi_eq : ctx'.hi = ctx.hi
  buffer_eq : ctx'.buffer = ctx.buffer
  regs_eq : regs ctx' = absorb P k (regs32 ctx) data
  trace_eq : ctx'.trace = ctx.trace ++
    Event.call data.length (64 * k) :: (chunks64 k data).map Event.compress

/-- The events of lines 208 to 213 of `md4_update` on the remaining data `y`: when
at least 64 bytes remain, one call of `body` on the whole blocks of `y`; then the
copy of the rest to the start of the buffer. -/
def update_rest_trace (y : List Byte) : List Event :=
  if y.length ≥ 64 then
    Event.call y.length (64 * (y.length / 64)) ::
      (chunks64 (y.length / 64) y).map Event.compress ++ [Event.write 0 (y.length % 64)]
  else [Event.write 0 y.length]

/-- The events of one `md4_update(ctx, data, size)` on a context with `used` valid
buffer bytes `pend`. -/
def update_trace (used : Nat) (pend data : List Byte) : List Event :=
  if data.length = 0 then []
  else if used = 0 then update_rest_trace data
  else if data.length < 64 - used then [Event.write used data.length]
  else
    [Event.write used (64 - used), Event.call 64 64,
      Event.compress (pend ++ data.take (64 - used))] ++
      update_rest_trace (data.drop (64 - used))

/-- What lines 208 to 213 of `md4_update` do with the remaining data `y`. -/
structure RestPost (P : Platform) (ctx : md4_context) (y : List Byte) (ctx' : md4_context) :
    Prop where
  lo_eq : ctx'.lo = ctx.lo
  hi_eq : ctx'.hi = ctx.hi
  regs_eq : regs ctx' =
    if y.length / 64 = 0 then regs ctx else absorb P (y.length / 64) (regs32 ctx) y
  buf_eq : ctx'.buffer.val.take (y.length % 64) = y.drop (64 * (y.length / 64))
  trace_eq : ctx'.trace = ctx.trace ++ update_rest_trace y

/-- What one `md4_update` with non-empty `data` does to an arbitrary context: the
counter advances, and the pending bytes followed by `data` are compressed block
by block, the incomplete rest staying in the buffer. -/
structure UpdatePost (P : Platform) (ctx : md4_context) (data : List Byte)
    (ctx' : md4_context) : Prop where
  lo_eq : ctx'.lo = (ctx.lo + data.length) % 2 ^ 29
  hi_eq : ctx'.hi =
    ((if (ctx.lo + data.length) % 2 ^ 29 < ctx.lo then (ctx.hi + 1) % 2 ^ P.fast32_bits
      else ctx.hi) + data.length / 2 ^ 29) % 2 ^ P.fast32_bits
  regs_eq : regs ctx' =
    if (pending ctx ++ data).length / 64 = 0 then regs ctx
    else absorb P ((pending ctx ++ data).length / 64) (regs32 ctx) (pending ctx ++ data)
  buf_eq : ctx'.buffer.val.take ((pending ctx ++ data).length % 64) =
    (pending ctx ++ data).drop (64 * ((pending ctx ++ data).length / 64))
  trace_eq : ctx'.trace = ctx.trace ++ update_trace (ctx.lo % 64) (pending ctx) data

/-- The block `md4_final` compresses last: the only one when fewer than 56 bytes are
pending, the second one otherwise. -/
def final_last_block (P : Platform) (ctx : md4_context) : List Byte :=
  if ctx.lo % 64 < 56 then final_input P ctx else (final_input P ctx).drop 64

/-- Modelled from the spec: the macro `MD4_RESULTLEN` is defined in `md4.h`, which is
not among the sources; section 6 of the spec gives the digest size as 16 bytes. -/
def MD4_RESULTLEN : Nat := 16

/-- Modelled from the spec: `struct hash_method` is declared outside `md4.c`. The
fields are those the initializer of `hash_method_md4` sets, except `context_size`
(a `sizeof`, which has no counterpart here). -/
structure hash_method where
  name : String
  block_size : Nat
  digest_size : Nat
  init : md4_context → md4_context
  loop : md4_context → List Byte → Option md4_context
  result : md4_context → Option (List Byte × md4_context)

/-- The table `hash_method_md4`. -/
def hash_method_md4 (P : Platform) : hash_method :=
  ⟨"md4", 64, MD4_RESULTLEN, md4_init, md4_update P, md4_final P⟩

/-- Word `i` of a block read little-endian: the Word Loader as the spec words it. -/
def le_word (blk : List Byte) (i : Nat) : Nat :=
  (blk.getD (4 * i) 0).val + 2 ^ 8 * (blk.getD (4 * i + 1) 0).val
    + 2 ^ 16 * (blk.getD (4 * i + 2) 0).val + 2 ^ 24 * (blk.getD (4 * i + 3) 0).val

/-- Rotation to the left, by `s` bits, of the low 32 bits of `x`. -/
def rotl32 (x s : Nat) : Nat :=
  (((x % 2 ^ 32) <<< s) ||| ((x % 2 ^ 32) >>> (32 - s))) % 2 ^ 32

/-- The selection function of round 1 as the spec writes it first, `(x & y) | (~x & z)`,
the complement being that of a 32-bit word. -/
def spec_select (x y z : Nat) : Nat := (x &&& y) ||| ((0xffffffff - x) &&& z)

/-- The majority function of round 2 of the spec. -/
def spec_majority (x y z : Nat) : Nat := (x &&& y) ||| (x &&& z) ||| (y &&& z)

/-- The function `x ^ y ^ z` of round 3 of the spec. -/
def spec_parity (x y z : Nat) : Nat := x ^^^ y ^^^ z

/-- One step of a round of the spec: the word at position `pos` of the cycle
a, d, c, b is replaced by `rotl32 (w + f (x, y, z) + X[idx] + k, s)`, where x, y, z
are the three words that follow it in the cyclic order a, b, c, d. -/
def spec_step (f : Nat → Nat → Nat → Nat) (k : Nat) (X : Nat → Nat) (st : Regs)
    (pos idx s : Nat) : Regs :=
  match pos with
  | 0 => { st with a := rotl32 (st.a + f st.b st.c st.d + X idx + k) s }
  | 1 => { st with d := rotl32 (st.d + f st.a st.b st.c + X idx + k) s }
  | 2 => { st with c := rotl32 (st.c + f st.d st.a st.b + X idx + k) s }
  | _ => { st with b := rotl32 (st.b + f st.c st.d st.a + X idx + k) s }

/-- A round of the spec: sixteen steps, step `i` at position `i mod 4` of the cycle,
with message word `idx[i]` and rotation `rot[i mod 4]`. -/
def spec_round (f : Nat → Nat → Nat → Nat) (k : Nat) (idx rot : List Nat) (X : Nat → Nat)
    (st : Regs) : Regs :=
  (List.range 16).foldl
    (fun st i => spec_step f k X st (i % 4) (idx.getD i 0) (rot.getD (i % 4) 0)) st

/-- The compression of one block as section 4.2 of the spec tabulates it: three
rounds of sixteen steps, then the saved words added back modulo `2 ^ 32`. -/
def spec_compress (st : Regs) (blk : List Byte) : Regs :=
  let s1 := spec_round F 0 (List.range 16) [3, 7, 11, 19] (le_word blk) st
  let s2 := spec_round spec_majority 0x5A827999
    [0, 4, 8, 12, 1, 5, 9, 13, 2, 6, 10, 14, 3, 7, 11, 15] [3, 5, 9, 13] (le_word blk) s1
  let s3 := spec_round spec_parity 0x6ED9EBA1
    [0, 8, 4, 12, 2, 10, 6, 14, 1, 9, 5, 13, 3, 11, 7, 15] [3, 9, 11, 15] (le_word blk) s2
  ⟨(s3.a + st.a) % 2 ^ 32, (s3.b + st.b) % 2 ^ 32, (s3.c + st.c) % 2 ^ 32,
    (s3.d + st.d) % 2 ^ 32⟩

/-- The blocks compressed, in order, according to a trace. -/
def compressed_blocks (ev : List Event) : List (List Byte) :=
  ev.filterMap fun e =>
    match e with
    | Event.compress blk => some blk
    | _ => none

/-- The calls of `body`, in order, according to a trace: the bytes readable at
`data` and the `size` passed. -/
def calls_of (ev : List Event) : List (Nat × Nat) :=
  ev.filterMap fun e =>
    match e with
    | Event.call avail size => some (avail, size)
    | _ => none

/-- The writes into `ctx->buffer`, in order, according to a trace: offset and
length. -/
def writes_of (ev : List Event) : List (Nat × Nat) :=
  ev.filterMap fun e =>
    match e with
    | Event.write off len => some (off, len)
    | _ => none

/-- The precondition of `body` on one call: `size` is a non-zero multiple of 64 and
at most the number of bytes readable at `data`. -/
def call_ok (c : Nat × Nat) : Bool :=
  decide (c.2 ≠ 0 ∧ c.2 % 64 = 0 ∧ c.2 ≤ c.1)

/-- The two kinds of call of `body` in this file: on the 64 bytes of the buffer
with size 64, or on at least 64 bytes of caller data with the length rounded down
to a multiple of 64. -/
def call_shape (c : Nat × Nat) : Bool :=
  decide ((c.1 = 64 ∧ c.2 = 64) ∨ (64 ≤ c.1 ∧ c.2 = clear_low6 c.1))

/-- A write that stays inside the 64 bytes of the buffer. -/
def write_ok (w : Nat × Nat) : Bool := decide (w.1 + w.2 ≤ 64)

/-! ## Basic facts -/

theorem wsub_of_le (P : Platform) {x y : Nat} (h : y ≤ x) : wsub P x y = x - y := by
  simp [wsub, h]

theorem and_0x3f (x : Nat) : x &&& 0x3f = x % 64 :=
  Nat.and_pow_two_sub_one_eq_mod x 6

theorem and_0x1fffffff (x : Nat) : x &&& 0x1fffffff = x % 2 ^ 29 :=
  Nat.and_pow_two_sub_one_eq_mod x 29

theorem clear_low6_eq (x : Nat) : clear_low6 x = 64 * (x / 64) := by
  unfold clear_low6
  rw [and_0x3f]
  omega

theorem getD_take64 (l : List Byte) (i : Nat) (h : i < 64) :
    (l.take 64).getD i 0 = l.getD i 0 := by
  simp [List.getD_eq_getElem?_getD, List.getElem?_take, h]

theorem load_le32_take64 (l : List Byte) (n : Fin 16) :
    load_le32 (l.take 64) n.val = load_le32 l n.val := by
  have h := n.isLt
  unfold load_le32
  rw [getD_take64 l _ (by omega), getD_take64 l _ (by omega), getD_take64 l _ (by omega),
    getD_take64 l _ (by omega)]

theorem assemble_le32_take64 (l : List Byte) (n : Fin 16) :
    assemble_le32 (l.take 64) n.val = assemble_le32 l n.val := by
  have h := n.isLt
  unfold assemble_le32
  rw [getD_take64 l _ (by omega), getD_take64 l _ (by omega), getD_take64 l _ (by omega),
    getD_take64 l _ (by omega)]

theorem SET_take64 (P : Platform) (block : Fin 16 → Nat) (l : List Byte) (n : Fin 16) :
    SET P block (l.take 64) n = SET P block l n := by
  unfold SET
  rw [load_le32_take64, assemble_le32_take64]

theorem GET_take64 (P : Platform) (block : Fin 16 → Nat) (l : List Byte) (n : Fin 16) :
    GET P block (l.take 64) n = GET P block l n := by
  unfold GET
  rw [load_le32_take64]

theorem round1_take64 (P : Platform) (r : Regs) (block : Fin 16 → Nat) (l : List Byte) :
    round1 P r block (l.take 64) = round1 P r block l := by
  simp only [round1, SET_take64]

theorem round2_take64 (P : Platform) (r : Regs) (block : Fin 16 → Nat) (l : List Byte) :
    round2 P r block (l.take 64) = round2 P r block l := by
  simp only [round2, GET_take64]

theorem round3_take64 (P : Platform) (r : Regs) (block : Fin 16 → Nat) (l : List Byte) :
    round3 P r block (l.take 64) = round3 P r block l := by
  simp only [round3, GET_take64]

theorem body_block_take64 (P : Platform) (r : Regs) (block : Fin 16 → Nat) (l : List Byte) :
    body_block P r block (l.take 64) = body_block P r block l := by
  simp only [body_block, round1_take64, round2_take64, round3_take64]

theorem round1_fst_indep (P : Platform) (r : Regs) (block block' : Fin 16 → Nat)
    (ptr : List Byte) : (round1 P r block ptr).1 = (round1 P r block' ptr).1 := by
  cases h : P.unaligned_le <;> simp only [round1, SET, h] <;> rfl

theorem GET_round1_indep (P : Platform) (r : Regs) (block block' : Fin 16 → Nat)
    (ptr : List Byte) (n : Fin 16) :
    GET P (round1 P r block ptr).2 ptr n = GET P (round1 P r block' ptr).2 ptr n := by
  cases h : P.unaligned_le
  · simp only [GET, round1, SET, h]
    fin_cases n <;> simp [Function.update]
  · simp only [GET, h, if_true]

theorem round2_congr (P : Platform) (r : Regs) (block block' : Fin 16 → Nat) (ptr : List Byte)
    (h : ∀ n, GET P block ptr n = GET P block' ptr n) :
    round2 P r block ptr = round2 P r block' ptr := by
  simp only [round2, h]

theorem round3_congr (P : Platform) (r : Regs) (block block' : Fin 16 → Nat) (ptr : List Byte)
    (h : ∀ n, GET P block ptr n = GET P block' ptr n) :
    round3 P r block ptr = round3 P r block' ptr := by
  simp only [round3, h]

theorem body_block_fst_indep (P : Platform) (r : Regs) (block block' : Fin 16 → Nat)
    (ptr : List Byte) : (body_block P r block ptr).1 = (body_block P r block' ptr).1 := by
  have h1 := round1_fst_indep P r block block' ptr
  have hg := GET_round1_indep P r block block' ptr
  simp only [body_block]
  rw [h1, round2_congr P _ _ _ ptr hg, round3_congr P _ _ _ ptr hg]

theorem body_block_fst (P : Platform) (r : Regs) (block : Fin 16 → Nat) (ptr : List Byte) :
    (body_block P r block ptr).1 = md4_compress P r (ptr.take 64) := by
  unfold md4_compress
  rw [body_block_take64]
  exact body_block_fst_indep P r block _ ptr

theorem md4_compress_bounded (P : Platform) (r : Regs) (blk : List Byte) :
    (md4_compress P r blk).bounded := by
  have h : (0 : Nat) < 2 ^ 32 := by decide
  exact ⟨Nat.mod_lt _ h, Nat.mod_lt _ h, Nat.mod_lt _ h, Nat.mod_lt _ h⟩

/-! ## The loop of `body` -/

theorem absorb_zero (P : Platform) (r : Regs) (l : List Byte) : absorb P 0 r l = r := rfl

theorem absorb_succ (P : Platform) (k : Nat) (r : Regs) (l : List Byte) :
    absorb P (k + 1) r l = absorb P k (md4_compress P r (l.take 64)) (l.drop 64) := rfl

theorem absorb_bounded_of (P : Platform) (k : Nat) :
    ∀ (r : Regs) (l : List Byte), r.bounded → (absorb P k r l).bounded := by
  induction k with
  | zero => intro r l h; exact h
  | succ k ih =>
    intro r l _
    rw [absorb_succ]
    exact ih _ _ (md4_compress_bounded P r _)

theorem absorb_bounded (P : Platform) (k : Nat) (r : Regs) (l : List Byte) (hk : 0 < k) :
    (absorb P k r l).bounded := by
  obtain ⟨j, rfl⟩ : ∃ j, k = j + 1 := ⟨k - 1, by omega⟩
  rw [absorb_succ]
  exact absorb_bounded_of P j _ _ (md4_compress_bounded P r _)

theorem body_loop_spec (P : Platform) (k : Nat) :
    ∀ (fuel : Nat) (r : Regs) (ctx : md4_context) (ptr : List Byte),
      64 * (k + 1) ≤ ptr.length → k + 1 ≤ fuel →
      ∃ blk, body_loop P fuel r ctx ptr (64 * (k + 1)) =
        some (absorb P (k + 1) r ptr,
          { ctx with block := blk,
                     trace := ctx.trace ++ (chunks64 (k + 1) ptr).map Event.compress },
          ptr.drop (64 * (k + 1))) := by
  induction k with
  | zero =>
    intro fuel r ctx ptr hlen hfuel
    obtain ⟨f, rfl⟩ : ∃ f, fuel = f + 1 := ⟨fuel - 1, by omega⟩
    refine ⟨(body_block P r ctx.block ptr).2, ?_⟩
    have h1 : ¬ ptr.length < 64 := by omega
    have h2 : wsub P (64 * (0 + 1)) 64 = 0 := by rw [wsub_of_le P (by omega)]
    simp only [body_loop, h1, if_false, h2, ne_eq, not_true_eq_false, body_block_fst]
    simp [absorb, chunks64, log]
  | succ k ih =>
    intro fuel r ctx ptr hlen hfuel
    obtain ⟨f, rfl⟩ : ∃ f, fuel = f + 1 := ⟨fuel - 1, by omega⟩
    have h1 : ¬ ptr.length < 64 := by omega
    have h2 : wsub P (64 * (k + 1 + 1)) 64 = 64 * (k + 1) := by
      rw [wsub_of_le P (by omega)]; omega
    have h3 : 64 * (k + 1) ≠ 0 := by omega
    have hlen' : 64 * (k + 1) ≤ (ptr.drop 64).length := by
      rw [List.length_drop]; omega
    obtain ⟨blk, hblk⟩ := ih f (body_block P r ctx.block ptr).1
      (log { ctx with block := (body_block P r ctx.block ptr).2 } (Event.compress (ptr.take 64)))
      (ptr.drop 64) hlen' (by omega)
    refine ⟨blk, ?_⟩
    simp only [body_loop, h1, if_false, h2, ne_eq, h3, not_false_eq_true, if_true]
    rw [hblk, body_block_fst, absorb_succ P (k + 1)]
    have h4 : 64 + 64 * (k + 1) = 64 * (k + 1 + 1) := by omega
    simp [log, chunks64, List.drop_drop, h4]

theorem body_spec (P : Platform) (ctx : md4_context) (data : List Byte) (k : Nat)
    (hk : 0 < k) (hlen : 64 * k ≤ data.length) :
    ∃ blk, body P ctx data (64 * k) =
      some ({ ctx with a := (absorb P k (regs32 ctx) data).a,
                       b := (absorb P k (regs32 ctx) data).b,
                       c := (absorb P k (regs32 ctx) data).c,
                       d := (absorb P k (regs32 ctx) data).d,
                       block := blk,
                       trace := ctx.trace ++ Event.call data.length (64 * k) ::
                         (chunks64 k data).map Event.compress },
        data.drop (64 * k)) := by
  obtain ⟨j, rfl⟩ : ∃ j, k = j + 1 := ⟨k - 1, by omega⟩
  obtain ⟨blk, hblk⟩ := body_loop_spec P j (data.length / 64 + 1) (regs32 ctx)
    (log ctx (Event.call data.length (64 * (j + 1)))) data hlen (by omega)
  refine ⟨blk, ?_⟩
  unfold body
  simp only [regs32, log] at hblk ⊢
  rw [hblk]
  simp

/-! ## The buffer writes and `md4_update` -/

theorem buf_memcpy_spec (ctx : md4_context) (off : Nat) (src : List Byte) (n : Nat)
    (h1 : off + n ≤ 64) (h2 : n ≤ src.length) :
    ∃ ctx', buf_memcpy ctx off src n = some ctx' ∧ Wrote ctx off (src.take n) ctx' := by
  have hl : (src.take n).length = n := by rw [List.length_take]; omega
  refine ⟨_, by simp only [buf_memcpy, h1, h2, and_self, dite_true]; rfl, ?_⟩
  constructor <;> simp [log, regs, hl]

theorem buf_memset_spec (ctx : md4_context) (off : Nat) (v : Byte) (n : Nat)
    (h1 : off + n ≤ 64) :
    ∃ ctx', buf_memset ctx off v n = some ctx' ∧ Wrote ctx off (List.replicate n v) ctx' := by
  refine ⟨_, by simp only [buf_memset, h1, dite_true]; rfl, ?_⟩
  constructor <;> simp [log, regs]

theorem buf_store_spec (ctx : md4_context) (i : Nat) (v : Byte) (h1 : i < 64) :
    ∃ ctx', buf_store ctx i v = some ctx' ∧ Wrote ctx i [v] ctx' := by
  refine ⟨_, by simp only [buf_store, h1, if_true]; rfl, ?_⟩
  have hb := ctx.buffer.property
  constructor <;> simp [log, regs, List.set_eq_take_append_cons_drop, hb, h1]

theorem body_spec' (P : Platform) (ctx : md4_context) (data : List Byte) (k : Nat)
    (hk : 0 < k) (hlen : 64 * k ≤ data.length) :
    ∃ ctx', body P ctx data (64 * k) = some (ctx', data.drop (64 * k)) ∧
      Compressed P ctx data k ctx' := by
  obtain ⟨blk, h⟩ := body_spec P ctx data k hk hlen
  exact ⟨_, h, by constructor <;> simp [regs]⟩

theorem regs32_of_bounded (ctx : md4_context) (h : (regs ctx).bounded) : regs32 ctx = regs ctx := by
  obtain ⟨ha, hb, hc, hd⟩ := h
  simp only [regs] at ha hb hc hd
  simp only [regs32, regs, Nat.mod_eq_of_lt ha, Nat.mod_eq_of_lt hb, Nat.mod_eq_of_lt hc,
    Nat.mod_eq_of_lt hd]

theorem md4_update_rest_spec (P : Platform) (ctx : md4_context) (y : List Byte) :
    ∃ ctx', md4_update_rest P ctx y y.length = some ctx' ∧ RestPost P ctx y ctx' := by
  unfold md4_update_rest
  by_cases h : y.length ≥ 64
  · have hk : 0 < y.length / 64 := Nat.div_pos h (by decide)
    have hlen : 64 * (y.length / 64) ≤ y.length := Nat.mul_div_le _ _
    obtain ⟨c1, hc1, C⟩ := body_spec' P ctx y (y.length / 64) hk hlen
    have hd : (y.drop (64 * (y.length / 64))).length = y.length % 64 := by
      rw [List.length_drop]; omega
    obtain ⟨c2, hc2, W⟩ := buf_memcpy_spec c1 0 (y.drop (64 * (y.length / 64))) (y.length % 64)
      (by omega) (by omega)
    refine ⟨c2, ?_, ?_⟩
    · rw [if_pos h, clear_low6_eq, hc1, Option.some_bind, and_0x3f]
      exact hc2
    · have hk' : y.length / 64 ≠ 0 := by omega
      constructor
      · rw [W.lo_eq, C.lo_eq]
      · rw [W.hi_eq, C.hi_eq]
      · rw [W.regs_eq, C.regs_eq, if_neg hk']
      · have ht : List.take (y.length % 64) (y.drop (64 * (y.length / 64))) =
            y.drop (64 * (y.length / 64)) := List.take_of_length_le (by omega)
        rw [W.buf_eq, ht, List.take_zero, List.nil_append, List.take_left' hd]
      · have ht : (List.take (y.length % 64) (y.drop (64 * (y.length / 64)))).length =
            y.length % 64 := by rw [List.length_take]; omega
        rw [W.trace_eq, C.trace_eq, ht]
        simp only [update_rest_trace, if_pos h, List.append_assoc, List.cons_append]
  · have hlt : y.length < 64 := by omega
    obtain ⟨c2, hc2, W⟩ := buf_memcpy_spec ctx 0 y y.length (by omega) (by omega)
    refine ⟨c2, by rw [if_neg h]; exact hc2, ?_⟩
    have hk : y.length / 64 = 0 := by omega
    have hm : y.length % 64 = y.length := by omega
    constructor
    · exact W.lo_eq
    · exact W.hi_eq
    · rw [W.regs_eq, if_pos hk]
    · rw [W.buf_eq, hk, hm]
      simp
    · rw [W.trace_eq, List.take_length]
      simp only [update_rest_trace, if_neg h]

theorem counter_lo (P : Platform) (ctx : md4_context) (size : Nat) :
    (md4_update_counter P ctx size).lo = (ctx.lo + size) % 2 ^ 29 := by
  unfold md4_update_counter
  simp only [and_0x1fffffff]
  split <;> rfl

theorem counter_hi (P : Platform) (ctx : md4_context) (size : Nat) :
    (md4_update_counter P ctx size).hi =
      ((if (ctx.lo + size) % 2 ^ 29 < ctx.lo then (ctx.hi + 1) % 2 ^ P.fast32_bits
        else ctx.hi) + size / 2 ^ 29) % 2 ^ P.fast32_bits := by
  unfold md4_update_counter
  simp only [and_0x1fffffff, Nat.shiftRight_eq_div_pow]
  split <;> rfl

theorem counter_buffer (P : Platform) (ctx : md4_context) (size : Nat) :
    (md4_update_counter P ctx size).buffer = ctx.buffer := by
  unfold md4_update_counter
  simp only
  split <;> rfl

theorem counter_regs (P : Platform) (ctx : md4_context) (size : Nat) :
    regs (md4_update_counter P ctx size) = regs ctx := by
  unfold md4_update_counter
  simp only
  split <;> rfl

theorem counter_regs32 (P : Platform) (ctx : md4_context) (size : Nat) :
    regs32 (md4_update_counter P ctx size) = regs32 ctx := by
  unfold md4_update_counter
  simp only
  split <;> rfl

theorem counter_trace (P : Platform) (ctx : md4_context) (size : Nat) :
    (md4_update_counter P ctx size).trace = ctx.trace := by
  unfold md4_update_counter
  simp only
  split <;> rfl

theorem pending_length (ctx : md4_context) : (pending ctx).length = ctx.lo % 64 := by
  have hb := ctx.buffer.property
  unfold pending
  rw [List.length_take, hb]
  omega

theorem absorb_of_regs (P : Platform) (k : Nat) (ctx : md4_context) (y : List Byte)
    (h : (regs ctx).bounded) :
    (if k = 0 then regs ctx else absorb P k (regs32 ctx) y) = absorb P k (regs ctx) y := by
  rw [regs32_of_bounded ctx h]
  split
  · rename_i hk; rw [hk, absorb_zero]
  · rfl

theorem md4_update_spec (P : Platform) (ctx : md4_context) (data : List Byte)
    (hne : data ≠ []) :
    ∃ ctx', md4_update P ctx data = some ctx' ∧ UpdatePost P ctx data ctx' := by
  have hsz : data.length ≠ 0 := by
    intro h; exact hne (List.length_eq_zero.mp h)
  have hp := pending_length ctx
  have hxl : (pending ctx ++ data).length = ctx.lo % 64 + data.length := by
    rw [List.length_append, hp]
  have hlt : ctx.lo % 64 < 64 := Nat.mod_lt _ (by decide)
  unfold md4_update
  simp only [hsz, if_false, and_0x3f]
  by_cases hu : ctx.lo % 64 = 0
  · -- the buffer is empty
    have hpe : pending ctx = [] := List.length_eq_zero.mp (by rw [hp, hu])
    obtain ⟨c', hc', R⟩ := md4_update_rest_spec P (md4_update_counter P ctx data.length) data
    refine ⟨c', by simp only [hu, ne_eq, not_true_eq_false, if_false]; exact hc', ?_⟩
    constructor
    · rw [R.lo_eq, counter_lo]
    · rw [R.hi_eq, counter_hi]
    · rw [R.regs_eq, counter_regs, counter_regs32, hpe, List.nil_append]
    · rw [hpe, List.nil_append]; exact R.buf_eq
    · rw [R.trace_eq, counter_trace]
      simp only [update_trace, if_neg hsz, if_pos hu]
  · have hfree : wsub P 64 (ctx.lo % 64) = 64 - ctx.lo % 64 := wsub_of_le P (by omega)
    simp only [ne_eq, hu, not_false_eq_true, if_true, hfree]
    by_cases hs : data.length < 64 - ctx.lo % 64
    · -- the data fits in the buffer without completing a block
      obtain ⟨c', hc', W⟩ := buf_memcpy_spec (md4_update_counter P ctx data.length)
        (ctx.lo % 64) data data.length (by omega) (by omega)
      refine ⟨c', by rw [if_pos hs]; exact hc', ?_⟩
      have hk : (pending ctx ++ data).length / 64 = 0 := by rw [hxl]; omega
      have hm : (pending ctx ++ data).length % 64 = ctx.lo % 64 + data.length := by
        rw [hxl]; omega
      constructor
      · rw [W.lo_eq, counter_lo]
      · rw [W.hi_eq, counter_hi]
      · rw [W.regs_eq, counter_regs, if_pos hk]
      · rw [W.buf_eq, counter_buffer, hk, hm, List.take_length, Nat.mul_zero, List.drop_zero]
        unfold pending
        apply List.take_left'
        rw [List.length_append, List.length_take, ctx.buffer.property]
        omega
      · rw [W.trace_eq, counter_trace, List.take_length]
        simp only [update_trace, if_neg hsz, if_neg hu, if_pos hs]
    · -- the data completes the buffered block
      obtain ⟨c1, hc1, W⟩ := buf_memcpy_spec (md4_update_counter P ctx data.length)
        (ctx.lo % 64) data (64 - ctx.lo % 64) (by omega) (by omega)
      have hb1 : c1.buffer.val = (pending ctx ++ data).take 64 := by
        rw [W.buf_eq, counter_buffer, List.length_take,
          List.drop_of_length_le (by rw [ctx.buffer.property]; omega), List.append_nil,
          List.take_append_eq_append_take, hp,
          List.take_of_length_le (by rw [hp]; omega : (pending ctx).length ≤ 64)]
        rfl
      obtain ⟨c2, hc2, C⟩ := body_spec' P c1 c1.buffer.val 1 (by decide)
        (by rw [c1.buffer.property])
      have hy : (data.drop (64 - ctx.lo % 64)).length = data.length - (64 - ctx.lo % 64) :=
        List.length_drop _ _
      have hw : wsub P data.length (64 - ctx.lo % 64) =
          (data.drop (64 - ctx.lo % 64)).length := by
        rw [wsub_of_le P (by omega), hy]
      obtain ⟨c', hc', R⟩ := md4_update_rest_spec P c2 (data.drop (64 - ctx.lo % 64))
      refine ⟨c', ?_, ?_⟩
      · rw [if_neg hs, hc1, Option.some_bind]
        have hc2' : body P c1 c1.buffer.val 64 = some (c2, List.drop (64 * 1) c1.buffer.val) := hc2
        rw [hc2', Option.some_bind, hw]
        exact hc'
      · have hxd : (pending ctx ++ data).drop 64 = data.drop (64 - ctx.lo % 64) := by
          rw [List.drop_append_eq_append_drop, hp,
            List.drop_of_length_le (by rw [hp]; omega : (pending ctx).length ≤ 64),
            List.nil_append]
        have hk : (pending ctx ++ data).length / 64 =
            (data.drop (64 - ctx.lo % 64)).length / 64 + 1 := by
          rw [hxl, hy]; omega
        have hm : (pending ctx ++ data).length % 64 =
            (data.drop (64 - ctx.lo % 64)).length % 64 := by
          rw [hxl, hy]; omega
        have hr2 : regs c2 = md4_compress P (regs32 ctx) ((pending ctx ++ data).take 64) := by
          rw [C.regs_eq, absorb_succ, absorb_zero, hb1, List.take_take]
          have : regs32 c1 = regs32 ctx := by
            have h1 := W.regs_eq
            rw [counter_regs] at h1
            simp only [regs, Regs.mk.injEq] at h1
            obtain ⟨ha, hb, hc, hd⟩ := h1
            simp only [regs32, ha, hb, hc, hd]
          rw [this]
          rfl
        have hbd : (regs c2).bounded := by rw [hr2]; exact md4_compress_bounded _ _ _
        constructor
        · rw [R.lo_eq, C.lo_eq, W.lo_eq, counter_lo]
        · rw [R.hi_eq, C.hi_eq, W.hi_eq, counter_hi]
        · rw [R.regs_eq, absorb_of_regs P _ c2 _ hbd, hk, if_neg (by omega), absorb_succ,
            hxd, hr2]
        · rw [hm, hk, R.buf_eq, ← hxd, List.drop_drop]
          congr 1
          omega
        · have htl : (data.take (64 - ctx.lo % 64)).length = 64 - ctx.lo % 64 := by
            rw [List.length_take]; omega
          have hb1' : c1.buffer.val.take 64 = pending ctx ++ data.take (64 - ctx.lo % 64) := by
            rw [hb1, List.take_take, Nat.min_self, List.take_append_eq_append_take, hp,
              List.take_of_length_le (by rw [hp]; omega : (pending ctx).length ≤ 64)]
          rw [R.trace_eq, C.trace_eq, W.trace_eq, counter_trace, htl, c1.buffer.property]
          simp only [update_trace, if_neg hsz, if_neg hu, if_neg hs, chunks64, List.map, hb1',
            List.append_assoc, List.cons_append, List.nil_append, Nat.mul_one]

/-! ## The streaming invariant -/

theorem chunks64_append (q k : Nat) :
    ∀ (u v : List Byte), u.length = 64 * q →
      chunks64 (q + k) (u ++ v) = chunks64 q u ++ chunks64 k v := by
  induction q with
  | zero =>
    intro u v hu
    have : u = [] := List.length_eq_zero.mp (by omega)
    subst this
    simp [chunks64]
  | succ q ih =>
    intro u v hu
    have h1 : q + 1 + k = (q + k) + 1 := by omega
    have h2 : (u ++ v).take 64 = u.take 64 := List.take_append_of_le_length (by omega)
    have h3 : (u ++ v).drop 64 = u.drop 64 ++ v := List.drop_append_of_le_length (by omega)
    have h4 : (u.drop 64).length = 64 * q := by rw [List.length_drop]; omega
    rw [h1]
    simp only [chunks64, h2, h3, ih _ v h4, List.cons_append]

theorem chunks64_append_left (q : Nat) (u v : List Byte) (hu : u.length = 64 * q) :
    chunks64 q (u ++ v) = chunks64 q u := by
  have h := chunks64_append q 0 u v hu
  simpa [chunks64] using h

theorem absorb_append (P : Platform) (q k : Nat) (r : Regs) (u v : List Byte)
    (hu : u.length = 64 * q) :
    absorb P (q + k) r (u ++ v) = absorb P k (absorb P q r u) v := by
  unfold absorb
  rw [chunks64_append q k u v hu, List.foldl_append]

theorem absorb_append_left (P : Platform) (q : Nat) (r : Regs) (u v : List Byte)
    (hu : u.length = 64 * q) : absorb P q r (u ++ v) = absorb P q r u := by
  unfold absorb
  rw [chunks64_append_left q u v hu]

theorem md4_iv_bounded : md4_iv.bounded := by
  unfold Regs.bounded md4_iv
  decide

theorem Absorbed.bounded {P : Platform} {ctx : md4_context} {m : List Byte}
    (h : Absorbed P ctx m) : (regs ctx).bounded := by
  rw [h.regs_eq]
  exact absorb_bounded_of P _ _ _ md4_iv_bounded

theorem Absorbed.pending_eq {P : Platform} {ctx : md4_context} {m : List Byte}
    (h : Absorbed P ctx m) : pending ctx = m.drop (64 * (m.length / 64)) := by
  unfold pending
  rw [← h.buf_eq, h.lo_eq]
  congr 1
  omega

theorem absorbed_init (P : Platform) (ctx : md4_context) : Absorbed P (md4_init ctx) [] := by
  constructor <;> simp [md4_init, regs, absorb, chunks64, md4_iv]

theorem hi_step (M hi lo n s : Nat) (hlo : lo = n % 2 ^ 29) (hhi : hi = n / 2 ^ 29 % M) :
    ((if (lo + s) % 2 ^ 29 < lo then (hi + 1) % M else hi) + s / 2 ^ 29) % M =
      (n + s) / 2 ^ 29 % M := by
  subst hlo hhi
  by_cases hc : (n % 2 ^ 29 + s) % 2 ^ 29 < n % 2 ^ 29
  · have : (n + s) / 2 ^ 29 = n / 2 ^ 29 + (1 + s / 2 ^ 29) := by omega
    rw [if_pos hc, this, Nat.mod_add_mod, Nat.add_assoc, Nat.mod_add_mod]
  · have : (n + s) / 2 ^ 29 = n / 2 ^ 29 + s / 2 ^ 29 := by omega
    rw [if_neg hc, this, Nat.mod_add_mod]

theorem absorbed_update (P : Platform) (ctx : md4_context) (m data : List Byte)
    (h : Absorbed P ctx m) :
    ∃ ctx', md4_update P ctx data = some ctx' ∧ Absorbed P ctx' (m ++ data) := by
  by_cases hne : data = []
  · subst hne
    exact ⟨ctx, by simp [md4_update], by rw [List.append_nil]; exact h⟩
  · obtain ⟨ctx', hc, U⟩ := md4_update_spec P ctx data hne
    refine ⟨ctx', hc, ?_⟩
    have hpe := h.pending_eq
    have hml : (m.take (64 * (m.length / 64))).length = 64 * (m.length / 64) := by
      rw [List.length_take]; omega
    have hdl : (m.drop (64 * (m.length / 64))).length = m.length % 64 := by
      rw [List.length_drop]; omega
    have hsplit : m ++ data = m.take (64 * (m.length / 64)) ++ (pending ctx ++ data) := by
      rw [hpe, ← List.append_assoc, List.take_append_drop]
    have hxl : (pending ctx ++ data).length = m.length % 64 + data.length := by
      rw [List.length_append, hpe, hdl]
    have hk : (m ++ data).length / 64 = m.length / 64 + (pending ctx ++ data).length / 64 := by
      rw [hxl, List.length_append]; omega
    have hmod : (m ++ data).length % 64 = (pending ctx ++ data).length % 64 := by
      rw [hxl, List.length_append]; omega
    constructor
    · rw [U.lo_eq, h.lo_eq, List.length_append]; omega
    · rw [U.hi_eq, List.length_append]
      exact hi_step _ _ _ _ _ h.lo_eq h.hi_eq
    · rw [U.regs_eq, absorb_of_regs P _ ctx _ h.bounded, hk, h.regs_eq]
      have hm' : absorb P (m.length / 64) md4_iv m =
          absorb P (m.length / 64) md4_iv (m.take (64 * (m.length / 64))) := by
        have := absorb_append_left P (m.length / 64) md4_iv _ (m.drop (64 * (m.length / 64))) hml
        rwa [List.take_append_drop] at this
      rw [hsplit, absorb_append P _ _ _ _ _ hml, hm']
    · rw [hmod, U.buf_eq, hk]
      rw [hsplit, Nat.mul_add, ← List.drop_drop, List.drop_left' hml]

theorem absorbed_updates (P : Platform) (chunks : List (List Byte)) :
    ∀ (ctx : md4_context) (m : List Byte), Absorbed P ctx m →
      ∃ ctx', md4_updates P ctx chunks = some ctx' ∧ Absorbed P ctx' (m ++ chunks.flatten) := by
  induction chunks with
  | nil =>
    intro ctx m h
    exact ⟨ctx, rfl, by simpa using h⟩
  | cons c cs ih =>
    intro ctx m h
    obtain ⟨c1, hc1, h1⟩ := absorbed_update P ctx m c h
    obtain ⟨c2, hc2, h2⟩ := ih c1 (m ++ c) h1
    refine ⟨c2, ?_, ?_⟩
    · simp only [md4_updates, hc1, Option.some_bind, hc2]
    · simpa [List.append_assoc] using h2

/-! ## `md4_final` -/

theorem i_zero_safe_eq (ctx : md4_context) : i_zero_safe ctx = erased ctx.trace := rfl

theorem md4_result_eq (ctx : md4_context) : md4_result ctx = serialize (regs ctx) := by
  simp only [md4_result, serialize, le_bytes, regs, Nat.shiftRight_eq_div_pow,
    Nat.div_div_eq_div_mul]
  rfl

theorem splice_step (p rest : List Byte) (n : Nat) (v : Byte) (hp : p.length = n) :
    (p ++ rest).take n ++ [v] ++ (p ++ rest).drop (n + [v].length) = (p ++ [v]) ++ rest.drop 1 := by
  rw [List.take_left' hp, List.length_singleton, ← List.drop_drop, List.drop_left' hp]

theorem regs32_congr {c c' : md4_context} (h : regs c' = regs c) : regs32 c' = regs32 c := by
  simp only [regs, Regs.mk.injEq] at h
  obtain ⟨ha, hb, hc, hd⟩ := h
  simp only [regs32, ha, hb, hc, hd]

theorem md4_final_rest_spec (P : Platform) (ctx : md4_context) (used : Nat) (hu : used ≤ 56) :
    md4_final_rest P ctx used (64 - used) =
      some (serialize (md4_compress P (regs32 ctx)
              (ctx.buffer.val.take used ++ List.replicate (56 - used) 0 ++ length_bytes P ctx)),
            erased (ctx.trace ++ final_rest_trace used
              (ctx.buffer.val.take used ++ List.replicate (56 - used) 0 ++ length_bytes P ctx))) := by
  have hb := ctx.buffer.property
  have hw : wsub P (64 - used) 8 = 56 - used := by rw [wsub_of_le P (by omega)]; omega
  obtain ⟨c2, hc2, W2⟩ := buf_memset_spec ctx used 0 (56 - used) (by omega)
  -- the buffer after the zero fill, split at offset 56
  have hb2 : c2.buffer.val =
      (ctx.buffer.val.take used ++ List.replicate (56 - used) 0) ++ ctx.buffer.val.drop 56 := by
    rw [W2.buf_eq, List.length_replicate]
    congr 2
    omega
  have hp0 : (ctx.buffer.val.take used ++ List.replicate (56 - used) (0 : Byte)).length = 56 := by
    rw [List.length_append, List.length_take, List.length_replicate, hb]; omega
  unfold md4_final_rest
  rw [hw, hc2, Option.some_bind]
  simp only
  generalize hc3 : ({ c2 with lo := (c2.lo <<< 3) % 2 ^ P.fast32_bits } : md4_context) = c3
  have h3lo : c3.lo = (ctx.lo <<< 3) % 2 ^ P.fast32_bits := by rw [← hc3, W2.lo_eq]
  have h3hi : c3.hi = ctx.hi := by rw [← hc3]; exact W2.hi_eq
  have h3r : regs c3 = regs ctx := by rw [← hc3]; exact W2.regs_eq
  have h3b : c3.buffer.val = c2.buffer.val := by rw [← hc3]
  have h3t : c3.trace = c2.trace := by rw [← hc3]
  obtain ⟨c4, hc4, W4⟩ := buf_store_spec c3 56 (toByte ((c2.lo <<< 3) % 2 ^ P.fast32_bits))
    (by decide)
  obtain ⟨c5, hc5, W5⟩ := buf_store_spec c4 57 (toByte (c4.lo >>> 8)) (by decide)
  obtain ⟨c6, hc6, W6⟩ := buf_store_spec c5 58 (toByte (c5.lo >>> 16)) (by decide)
  obtain ⟨c7, hc7, W7⟩ := buf_store_spec c6 59 (toByte (c6.lo >>> 24)) (by decide)
  obtain ⟨c8, hc8, W8⟩ := buf_store_spec c7 60 (toByte c7.hi) (by decide)
  obtain ⟨c9, hc9, W9⟩ := buf_store_spec c8 61 (toByte (c8.hi >>> 8)) (by decide)
  obtain ⟨c10, hc10, W10⟩ := buf_store_spec c9 62 (toByte (c9.hi >>> 16)) (by decide)
  obtain ⟨c11, hc11, W11⟩ := buf_store_spec c10 63 (toByte (c10.hi >>> 24)) (by decide)
  obtain ⟨c12, hc12, C⟩ := body_spec' P c11 c11.buffer.val 1 (by decide)
    (by rw [c11.buffer.property])
  have hc12' : body P c11 c11.buffer.val 64 = some (c12, List.drop (64 * 1) c11.buffer.val) := hc12
  rw [hc4, Option.some_bind, hc5, Option.some_bind, hc6, Option.some_bind, hc7, Option.some_bind,
    hc8, Option.some_bind, hc9, Option.some_bind, hc10, Option.some_bind, hc11, Option.some_bind,
    hc12', Option.some_bind]
  -- the buffer after the eight stores
  have hlen : ∀ (p : List Byte) (n : Nat) (v : Byte), p.length = n → (p ++ [v]).length = n + 1 := by
    intro p n v h
    rw [List.length_append, h, List.length_singleton]
  have hp1 := hlen _ _ (toByte ((c2.lo <<< 3) % 2 ^ P.fast32_bits)) hp0
  have hp2 := hlen _ _ (toByte (c4.lo >>> 8)) hp1
  have hp3 := hlen _ _ (toByte (c5.lo >>> 16)) hp2
  have hp4 := hlen _ _ (toByte (c6.lo >>> 24)) hp3
  have hp5 := hlen _ _ (toByte c7.hi) hp4
  have hp6 := hlen _ _ (toByte (c8.hi >>> 8)) hp5
  have hp7 := hlen _ _ (toByte (c9.hi >>> 16)) hp6
  have hb4 := W4.buf_eq
  rw [h3b, hb2, splice_step _ _ 56 _ hp0] at hb4
  have hb5 := W5.buf_eq
  rw [hb4, splice_step _ _ 57 _ hp1] at hb5
  have hb6 := W6.buf_eq
  rw [hb5, splice_step _ _ 58 _ hp2] at hb6
  have hb7 := W7.buf_eq
  rw [hb6, splice_step _ _ 59 _ hp3] at hb7
  have hb8 := W8.buf_eq
  rw [hb7, splice_step _ _ 60 _ hp4] at hb8
  have hb9 := W9.buf_eq
  rw [hb8, splice_step _ _ 61 _ hp5] at hb9
  have hb10 := W10.buf_eq
  rw [hb9, splice_step _ _ 62 _ hp6] at hb10
  have hb11 := W11.buf_eq
  rw [hb10, splice_step _ _ 63 _ hp7] at hb11
  have hlo : c10.hi = ctx.hi ∧ c9.hi = ctx.hi ∧ c8.hi = ctx.hi ∧ c7.hi = ctx.hi ∧
      c6.lo = c3.lo ∧ c5.lo = c3.lo ∧ c4.lo = c3.lo := by
    refine ⟨?_, ?_, ?_, ?_, ?_, ?_, ?_⟩
    · rw [W10.hi_eq, W9.hi_eq, W8.hi_eq, W7.hi_eq, W6.hi_eq, W5.hi_eq, W4.hi_eq, h3hi]
    · rw [W9.hi_eq, W8.hi_eq, W7.hi_eq, W6.hi_eq, W5.hi_eq, W4.hi_eq, h3hi]
    · rw [W8.hi_eq, W7.hi_eq, W6.hi_eq, W5.hi_eq, W4.hi_eq, h3hi]
    · rw [W7.hi_eq, W6.hi_eq, W5.hi_eq, W4.hi_eq, h3hi]
    · rw [W6.lo_eq, W5.lo_eq, W4.lo_eq]
    · rw [W5.lo_eq, W4.lo_eq]
    · rw [W4.lo_eq]
  obtain ⟨e10, e9, e8, e7, e6, e5, e4⟩ := hlo
  rw [e10, e9, e8, e7, e6, e5, e4, h3lo, W2.lo_eq] at hb11
  have hbuf : c11.buffer.val =
      ctx.buffer.val.take used ++ List.replicate (56 - used) 0 ++ length_bytes P ctx := by
    rw [hb11]
    simp [length_bytes, List.drop_drop, List.drop_of_length_le, hb]
  have hr11 : regs32 c11 = regs32 ctx := by
    apply regs32_congr
    rw [W11.regs_eq, W10.regs_eq, W9.regs_eq, W8.regs_eq, W7.regs_eq, W6.regs_eq, W5.regs_eq,
      W4.regs_eq, h3r]
  have hl : (ctx.buffer.val.take used ++ List.replicate (56 - used) (0 : Byte) ++
      length_bytes P ctx).length = 64 := by
    rw [List.length_append, hp0]; rfl
  have ht : c12.trace = ctx.trace ++ final_rest_trace used
      (ctx.buffer.val.take used ++ List.replicate (56 - used) 0 ++ length_bytes P ctx) := by
    rw [C.trace_eq, W11.trace_eq, W10.trace_eq, W9.trace_eq, W8.trace_eq, W7.trace_eq,
      W6.trace_eq, W5.trace_eq, W4.trace_eq, h3t, W2.trace_eq, hbuf]
    generalize ctx.buffer.val.take used ++ List.replicate (56 - used) 0 ++ length_bytes P ctx = B
      at hl ⊢
    simp only [chunks64, List.map, List.take_of_length_le (Nat.le_of_eq hl), hl,
      final_rest_trace, List.length_replicate, List.length_singleton, List.append_assoc,
      List.singleton_append, List.cons_append, List.nil_append, Nat.mul_one]
  simp only [md4_result_eq, i_zero_safe_eq, ht, C.regs_eq, hr11, hbuf, absorb_succ, absorb_zero,
    List.take_of_length_le (Nat.le_of_eq hl)]

theorem length_bytes_length (P : Platform) (ctx : md4_context) :
    (length_bytes P ctx).length = 8 := rfl

theorem length_bytes_congr (P : Platform) {c c' : md4_context} (hlo : c'.lo = c.lo)
    (hhi : c'.hi = c.hi) : length_bytes P c' = length_bytes P c := by
  simp only [length_bytes, hlo, hhi]

theorem final_input_length (P : Platform) (ctx : md4_context) :
    (final_input P ctx).length = if ctx.lo % 64 < 56 then 64 else 128 := by
  have hp := pending_length ctx
  have hlt : ctx.lo % 64 < 64 := Nat.mod_lt _ (by decide)
  simp only [final_input, final_tail, List.length_append, hp, List.length_singleton,
    List.length_replicate, length_bytes_length]
  split <;> omega

theorem md4_final_spec (P : Platform) (ctx : md4_context) :
    md4_final P ctx =
      some (serialize (absorb P ((final_input P ctx).length / 64) (regs32 ctx) (final_input P ctx)),
        erased (ctx.trace ++ final_trace (ctx.lo % 64) (final_input P ctx))) := by
  have hb := ctx.buffer.property
  have hp := pending_length ctx
  have hlt : ctx.lo % 64 < 64 := Nat.mod_lt _ (by decide)
  have hfl := final_input_length P ctx
  obtain ⟨c1, hc1, W1⟩ := buf_store_spec ctx (ctx.lo % 64) 0x80 hlt
  have hw : wsub P 64 (ctx.lo % 64 + 1) = 64 - (ctx.lo % 64 + 1) := wsub_of_le P (by omega)
  have hb1 : c1.buffer.val.take (ctx.lo % 64 + 1) = pending ctx ++ [0x80] := by
    rw [W1.buf_eq]
    apply List.take_left'
    rw [List.length_append, List.length_take, hb, List.length_singleton]
    omega
  unfold md4_final
  simp only [and_0x3f]
  rw [hc1, Option.some_bind, hw]
  by_cases hu : 64 - (ctx.lo % 64 + 1) < 8
  · -- two blocks
    have hu56 : ¬ ctx.lo % 64 < 56 := by omega
    rw [if_neg hu56] at hfl
    obtain ⟨c2, hc2, W2⟩ := buf_memset_spec c1 (ctx.lo % 64 + 1) 0 (64 - (ctx.lo % 64 + 1))
      (by omega)
    have hb2 : c2.buffer.val = (final_input P ctx).take 64 := by
      rw [W2.buf_eq, hb1, List.length_replicate,
        List.drop_of_length_le (by rw [c1.buffer.property]; omega), List.append_nil]
      simp only [final_input, final_tail, if_neg hu56]
      have h119 : 119 - ctx.lo % 64 = (64 - (ctx.lo % 64 + 1)) + 56 := by omega
      rw [h119, List.replicate_add]
      simp only [← List.append_assoc]
      rw [List.append_assoc _ _ (length_bytes P ctx), List.take_left']
      simp only [List.length_append, hp, List.length_singleton, List.length_replicate]
      omega
    have hd2 : (final_input P ctx).drop 64 =
        List.replicate 56 0 ++ length_bytes P ctx := by
      simp only [final_input, final_tail, if_neg hu56]
      have h119 : 119 - ctx.lo % 64 = (64 - (ctx.lo % 64 + 1)) + 56 := by omega
      rw [h119, List.replicate_add]
      simp only [← List.append_assoc]
      rw [List.append_assoc _ _ (length_bytes P ctx), List.drop_left']
      simp only [List.length_append, hp, List.length_singleton, List.length_replicate]
      omega
    obtain ⟨c3, hc3, C⟩ := body_spec' P c2 c2.buffer.val 1 (by decide)
      (by rw [c2.buffer.property])
    have hc3' : body P c2 c2.buffer.val 64 = some (c3, List.drop (64 * 1) c2.buffer.val) := hc3
    have hrest := md4_final_rest_spec P c3 0 (Nat.zero_le _)
    change md4_final_rest P c3 0 64 = _ at hrest
    have hr2 : regs32 c2 = regs32 ctx := by
      apply regs32_congr; rw [W2.regs_eq, W1.regs_eq]
    have hr3 : regs c3 = md4_compress P (regs32 ctx) ((final_input P ctx).take 64) := by
      rw [C.regs_eq, absorb_succ, absorb_zero, hr2, hb2, List.take_take]
      rfl
    have hr3' : regs32 c3 = regs c3 :=
      regs32_of_bounded c3 (by rw [hr3]; exact md4_compress_bounded _ _ _)
    have hlb : length_bytes P c3 = length_bytes P ctx :=
      length_bytes_congr P (by rw [C.lo_eq, W2.lo_eq, W1.lo_eq])
        (by rw [C.hi_eq, W2.hi_eq, W1.hi_eq])
    have hd2l : ((final_input P ctx).drop 64).length = 64 := by
      rw [List.length_drop, hfl]
    rw [if_pos hu, hc2, Option.some_bind, hc3', Option.some_bind, hrest, hr3', hr3, hlb,
      List.take_zero, List.nil_append, ← hd2, hfl, C.trace_eq, W2.trace_eq, W1.trace_eq]
    have h2 : (128 : Nat) / 64 = 1 + 1 := rfl
    rw [h2, absorb_succ, absorb_succ, absorb_zero, List.take_of_length_le (Nat.le_of_eq hd2l)]
    simp only [final_trace, if_neg hu56, chunks64, List.map, hb2, List.take_take,
      c2.buffer.property, List.length_singleton, List.length_replicate, List.append_assoc,
      List.singleton_append, List.cons_append, List.nil_append, Nat.mul_one]
    have h63 : 64 - (ctx.lo % 64 + 1) = 63 - ctx.lo % 64 := by omega
    have htl : ((final_input P ctx).take 64).length = 64 := by
      rw [List.length_take, hfl]; rfl
    rw [h63, htl, Nat.min_self]
  · -- one block
    have hu56 : ctx.lo % 64 < 56 := by omega
    rw [if_pos hu56] at hfl
    have hrest := md4_final_rest_spec P c1 (ctx.lo % 64 + 1) (by omega)
    have hr1 : regs32 c1 = regs32 ctx := regs32_congr W1.regs_eq
    have hlb : length_bytes P c1 = length_bytes P ctx :=
      length_bytes_congr P W1.lo_eq W1.hi_eq
    have hfi : pending ctx ++ [0x80] ++ List.replicate (56 - (ctx.lo % 64 + 1)) 0 ++
        length_bytes P ctx = final_input P ctx := by
      have h55 : 56 - (ctx.lo % 64 + 1) = 55 - ctx.lo % 64 := by omega
      simp only [final_input, final_tail, if_pos hu56, List.append_assoc, h55]
    rw [if_neg hu, hrest, hb1, hr1, hlb, hfi, hfl, W1.trace_eq]
    have h1 : (64 : Nat) / 64 = 0 + 1 := rfl
    rw [h1, absorb_succ, absorb_zero, List.take_of_length_le (Nat.le_of_eq hfl)]
    simp only [final_trace, if_pos hu56, List.length_singleton, List.append_assoc,
      List.singleton_append]

/-! ## The padding of RFC 1320 and the reference digest -/

theorem pad_zeros_spec (n : Nat) :
    (n + 1 + pad_zeros n) % 64 = 56 ∧ ∀ z, (n + 1 + z) % 64 = 56 → pad_zeros n ≤ z := by
  unfold pad_zeros
  constructor
  · omega
  · intro z hz; omega

theorem md4_pad_length (m : List Byte) : (md4_pad m).length % 64 = 0 := by
  have h : (le_bytes 8 (8 * m.length % 2 ^ 64)).length = 8 := rfl
  simp only [md4_pad, List.length_append, List.length_singleton, List.length_replicate, h,
    pad_zeros]
  omega

theorem chunks64_flatten (k : Nat) :
    ∀ l : List Byte, l.length = 64 * k → (chunks64 k l).flatten = l := by
  induction k with
  | zero =>
    intro l hl
    have : l = [] := List.length_eq_zero.mp (by omega)
    simp [chunks64, this]
  | succ k ih =>
    intro l hl
    have h : (l.drop 64).length = 64 * k := by rw [List.length_drop]; omega
    simp only [chunks64, List.flatten_cons, ih _ h, List.take_append_drop]

theorem chunks64_length (k : Nat) :
    ∀ l : List Byte, 64 * k ≤ l.length → ∀ b ∈ chunks64 k l, b.length = 64 := by
  induction k with
  | zero => intro l _ b hb; simp [chunks64] at hb
  | succ k ih =>
    intro l hl b hb
    simp only [chunks64, List.mem_cons] at hb
    rcases hb with rfl | hb
    · rw [List.length_take]; omega
    · exact ih (l.drop 64) (by rw [List.length_drop]; omega) b hb

theorem split_blocks_flatten (l : List Byte) (h : l.length % 64 = 0) :
    (split_blocks l).flatten = l :=
  chunks64_flatten _ l (by omega)

theorem toByte_eq_of_mod {x y : Nat} (h : x % 256 = y % 256) : toByte x = toByte y :=
  Fin.ext h

theorem length_bytes_absorbed {P : Platform} {ctx : md4_context} {m : List Byte}
    (h : Absorbed P ctx m) : length_bytes P ctx = le_bytes 8 (8 * m.length % 2 ^ 64) := by
  have hw := P.fast32_ge
  have h32 : (2 : Nat) ^ 32 ∣ 2 ^ P.fast32_bits := Nat.pow_dvd_pow 2 hw
  have hle : (2 : Nat) ^ 32 ≤ 2 ^ P.fast32_bits := Nat.pow_le_pow_right (by decide) hw
  have hlo := h.lo_eq
  have hhi : ctx.hi % 2 ^ 32 = m.length / 2 ^ 29 % 2 ^ 32 := by
    rw [h.hi_eq, Nat.mod_mod_of_dvd _ h32]
  have hbits : (ctx.lo <<< 3) % 2 ^ P.fast32_bits = 8 * (m.length % 2 ^ 29) := by
    rw [Nat.shiftLeft_eq, hlo, Nat.mod_eq_of_lt (by omega)]
    omega
  simp only [length_bytes, le_bytes, hbits, Nat.shiftRight_eq_div_pow]
  generalize ctx.hi = hi at hhi
  generalize m.length = n at hhi
  clear hlo hbits hle h32 hw h
  simp only [List.cons.injEq, and_true]
  refine ⟨?_, ?_, ?_, ?_, ?_, ?_, ?_, ?_⟩ <;> apply toByte_eq_of_mod <;> omega

theorem final_input_absorbed {P : Platform} {ctx : md4_context} {m : List Byte}
    (h : Absorbed P ctx m) :
    md4_pad m = m.take (64 * (m.length / 64)) ++ final_input P ctx := by
  have hlo : ctx.lo % 64 = m.length % 64 := by rw [h.lo_eq]; omega
  have hz : (if ctx.lo % 64 < 56 then 55 - ctx.lo % 64 else 119 - ctx.lo % 64) =
      pad_zeros m.length := by
    rw [hlo]; unfold pad_zeros; split <;> omega
  simp only [final_input, final_tail, hz, h.pending_eq, length_bytes_absorbed h, md4_pad]
  simp only [← List.append_assoc, List.take_append_drop]

theorem absorbed_final (P : Platform) (ctx : md4_context) (m : List Byte)
    (h : Absorbed P ctx m) :
    md4_final P ctx = some (md4_reference P m,
      erased (ctx.trace ++ final_trace (ctx.lo % 64) (final_input P ctx))) := by
  rw [md4_final_spec]
  have hml : (m.take (64 * (m.length / 64))).length = 64 * (m.length / 64) := by
    rw [List.length_take]; omega
  have hfl := final_input_length P ctx
  have hk : (md4_pad m).length / 64 = m.length / 64 + (final_input P ctx).length / 64 := by
    rw [final_input_absorbed h, List.length_append, hml, hfl]
    split <;> omega
  have hm' : absorb P (m.length / 64) md4_iv (m.take (64 * (m.length / 64))) = regs32 ctx := by
    rw [regs32_of_bounded ctx h.bounded, h.regs_eq]
    have := absorb_append_left P (m.length / 64) md4_iv _ (m.drop (64 * (m.length / 64))) hml
    rw [List.take_append_drop] at this
    exact this.symm
  have href : md4_reference P m = serialize
      (absorb P ((final_input P ctx).length / 64) (regs32 ctx) (final_input P ctx)) := by
    unfold md4_reference split_blocks
    change serialize (absorb P ((md4_pad m).length / 64) md4_iv (md4_pad m)) = _
    rw [hk, final_input_absorbed h, absorb_append P _ _ _ _ _ hml, hm']
  rw [href]

theorem md4_stream_eq_reference (P : Platform) (ctx : md4_context) (chunks : List (List Byte)) :
    md4_stream P ctx chunks = some (md4_reference P chunks.flatten) := by
  obtain ⟨c1, hc1, h1⟩ := absorbed_updates P chunks (md4_init ctx) [] (absorbed_init P ctx)
  rw [List.nil_append] at h1
  unfold md4_stream
  rw [hc1, Option.some_bind, absorbed_final P c1 _ h1]
  rfl

theorem md4_get_digest_eq_reference (P : Platform) (stack : md4_context) (m : List Byte) :
    md4_get_digest P stack m = some (md4_reference P m) := by
  obtain ⟨c1, hc1, h1⟩ := absorbed_update P (md4_init stack) [] m (absorbed_init P stack)
  rw [List.nil_append] at h1
  unfold md4_get_digest
  rw [hc1, Option.some_bind, absorbed_final P c1 _ h1]
  rfl

theorem or_shift_eq_add (b0 b1 b2 b3 : Nat) (h0 : b0 < 256) (h1 : b1 < 256) (h2 : b2 < 256) :
    b0 ||| (b1 <<< 8) ||| (b2 <<< 16) ||| (b3 <<< 24) =
      b0 + 2 ^ 8 * b1 + 2 ^ 16 * b2 + 2 ^ 24 * b3 := by
  have e1 : b0 ||| (b1 <<< 8) = b0 + 2 ^ 8 * b1 := by
    rw [Nat.shiftLeft_eq, Nat.or_comm, Nat.mul_comm, ← Nat.mul_add_lt_is_or (by omega)]
    omega
  have e2 : b0 + 2 ^ 8 * b1 ||| (b2 <<< 16) = b0 + 2 ^ 8 * b1 + 2 ^ 16 * b2 := by
    rw [Nat.shiftLeft_eq, Nat.or_comm, Nat.mul_comm, ← Nat.mul_add_lt_is_or (by omega)]
    omega
  have e3 : b0 + 2 ^ 8 * b1 + 2 ^ 16 * b2 ||| (b3 <<< 24) =
      b0 + 2 ^ 8 * b1 + 2 ^ 16 * b2 + 2 ^ 24 * b3 := by
    rw [Nat.shiftLeft_eq, Nat.or_comm, Nat.mul_comm, ← Nat.mul_add_lt_is_or (by omega)]
    omega
  rw [e1, e2, e3]

theorem assemble_eq_load (ptr : List Byte) (n : Nat) : assemble_le32 ptr n = load_le32 ptr n := by
  unfold assemble_le32 load_le32
  exact or_shift_eq_add _ _ _ _ (Fin.isLt _) (Fin.isLt _) (Fin.isLt _)

theorem SET_fst (P : Platform) (block : Fin 16 → Nat) (ptr : List Byte) (n : Fin 16) :
    (SET P block ptr n).1 = load_le32 ptr n.val := by
  unfold SET
  split
  · rfl
  · exact assemble_eq_load ptr n.val

theorem load_le32_lt (ptr : List Byte) (n : Nat) : load_le32 ptr n < 2 ^ 32 := by
  unfold load_le32
  have h0 := (ptr.getD (n * 4) 0).isLt
  have h1 := (ptr.getD (n * 4 + 1) 0).isLt
  have h2 := (ptr.getD (n * 4 + 2) 0).isLt
  have h3 := (ptr.getD (n * 4 + 3) 0).isLt
  omega

/-- The value of `le_bytes 4 x` read back as a little-endian word is `x` modulo `2 ^ 32`. -/
theorem load_le_bytes (x : Nat) (pre post : List Byte) (n : Nat) (hpre : pre.length = n * 4) :
    load_le32 (pre ++ le_bytes 4 x ++ post) n = x % 2 ^ 32 := by
  have hg : ∀ i, i < 4 → (pre ++ le_bytes 4 x ++ post).getD (n * 4 + i) 0 =
      (le_bytes 4 x).getD i 0 := by
    intro i hi
    have hl : (le_bytes 4 x).length = 4 := rfl
    simp only [List.getD_eq_getElem?_getD]
    rw [List.append_assoc, List.getElem?_append_right (by omega), hpre, Nat.add_sub_cancel_left,
      List.getElem?_append_left (by omega)]
  unfold load_le32
  rw [← Nat.add_zero (n * 4), hg 0 (by decide), Nat.add_zero, hg 1 (by decide),
    hg 2 (by decide), hg 3 (by decide)]
  simp only [le_bytes, toByte, List.getD_cons_zero, List.getD_cons_succ]
  omega

theorem GET_round1 (P : Platform) (r : Regs) (block : Fin 16 → Nat) (ptr : List Byte)
    (n : Fin 16) : GET P (round1 P r block ptr).2 ptr n = load_le32 ptr n.val := by
  cases h : P.unaligned_le
  · simp only [GET, round1, SET, h]
    fin_cases n <;> simp [Function.update, assemble_eq_load] <;> rfl
  · simp only [GET, h, if_true]

theorem round1_fst_platform (P Q : Platform) (r : Regs) (block block' : Fin 16 → Nat)
    (ptr : List Byte) : (round1 P r block ptr).1 = (round1 Q r block' ptr).1 := by
  simp only [round1, SET_fst]

theorem round2_platform (P Q : Platform) (r : Regs) (block block' : Fin 16 → Nat)
    (ptr : List Byte) (h : ∀ n, GET P block ptr n = load_le32 ptr n.val)
    (h' : ∀ n, GET Q block' ptr n = load_le32 ptr n.val) :
    round2 P r block ptr = round2 Q r block' ptr := by
  simp only [round2, h, h']

theorem round3_platform (P Q : Platform) (r : Regs) (block block' : Fin 16 → Nat)
    (ptr : List Byte) (h : ∀ n, GET P block ptr n = load_le32 ptr n.val)
    (h' : ∀ n, GET Q block' ptr n = load_le32 ptr n.val) :
    round3 P r block ptr = round3 Q r block' ptr := by
  simp only [round3, h, h']

theorem md4_compress_platform (P Q : Platform) (r : Regs) (blk : List Byte) :
    md4_compress P r blk = md4_compress Q r blk := by
  have h1 := round1_fst_platform P Q r (fun _ => 0) (fun _ => 0) blk
  have hP := GET_round1 P r (fun _ => 0) blk
  have hQ := GET_round1 Q r (fun _ => 0) blk
  simp only [md4_compress, body_block]
  rw [h1, round2_platform P Q _ _ _ blk hP hQ, round3_platform P Q _ _ _ blk hP hQ]

theorem md4_reference_platform (P Q : Platform) (m : List Byte) :
    md4_reference P m = md4_reference Q m := by
  have h : md4_compress P = md4_compress Q := by
    funext r blk; exact md4_compress_platform P Q r blk
  unfold md4_reference
  rw [h]

theorem final_last_block_length (P : Platform) (ctx : md4_context) :
    (final_last_block P ctx).length = 64 := by
  have h := final_input_length P ctx
  unfold final_last_block
  split
  · rename_i hu; rw [h, if_pos hu]
  · rename_i hu; rw [List.length_drop, h, if_neg hu]

theorem final_last_block_drop (P : Platform) (ctx : md4_context) :
    (final_last_block P ctx).drop 56 = length_bytes P ctx := by
  have hp := pending_length ctx
  have hlt : ctx.lo % 64 < 64 := Nat.mod_lt _ (by decide)
  unfold final_last_block
  split
  · rename_i hu
    simp only [final_input, final_tail, if_pos hu, ← List.append_assoc]
    apply List.drop_left'
    simp only [List.length_append, hp, List.length_singleton, List.length_replicate]
    omega
  · rename_i hu
    rw [List.drop_drop]
    simp only [final_input, final_tail, if_neg hu, ← List.append_assoc]
    apply List.drop_left'
    simp only [List.length_append, hp, List.length_singleton, List.length_replicate]
    omega

theorem final_trace_getLast (tr : List Event) (P : Platform) (ctx : md4_context) :
    (tr ++ final_trace (ctx.lo % 64) (final_input P ctx)).getLast? =
      some (Event.compress (final_last_block P ctx)) := by
  unfold final_trace final_last_block final_rest_trace
  split <;> simp

theorem counter_hi_exact (P : Platform) (s : md4_context) (size : Nat) (h : s.lo < 2 ^ 29) :
    (md4_update_counter P s size).hi = (s.hi + (s.lo + size) / 2 ^ 29) % 2 ^ P.fast32_bits := by
  rw [counter_hi]
  by_cases hc : (s.lo + size) % 2 ^ 29 < s.lo
  · have : (s.lo + size) / 2 ^ 29 = 1 + size / 2 ^ 29 := by omega
    rw [if_pos hc, this, Nat.mod_add_mod, Nat.add_assoc]
  · have : (s.lo + size) / 2 ^ 29 = size / 2 ^ 29 := by omega
    rw [if_neg hc, this]

theorem md4_update_lo_lt (P : Platform) (ctx : md4_context) (data : List Byte)
    (h : ctx.lo < 2 ^ 29) : ∃ ctx', md4_update P ctx data = some ctx' ∧ ctx'.lo < 2 ^ 29 := by
  by_cases hne : data = []
  · subst hne
    exact ⟨ctx, by simp [md4_update], h⟩
  · obtain ⟨ctx', hc, U⟩ := md4_update_spec P ctx data hne
    exact ⟨ctx', hc, by rw [U.lo_eq]; exact Nat.mod_lt _ (by decide)⟩

theorem absorbed_of_chunks (P : Platform) (ctx : md4_context) (chunks : List (List Byte)) :
    ∃ c, md4_updates P (md4_init ctx) chunks = some c ∧ Absorbed P c chunks.flatten := by
  obtain ⟨c, hc, h⟩ := absorbed_updates P chunks (md4_init ctx) [] (absorbed_init P ctx)
  rw [List.nil_append] at h
  exact ⟨c, hc, h⟩

theorem serialize_length (r : Regs) : (serialize r).length = 16 := rfl

theorem serialize_words (r : Regs) (h : r.bounded) :
    load_le32 (serialize r) 0 = r.a ∧ load_le32 (serialize r) 1 = r.b ∧
    load_le32 (serialize r) 2 = r.c ∧ load_le32 (serialize r) 3 = r.d := by
  obtain ⟨ha, hb, hc, hd⟩ := h
  have e0 := load_le_bytes r.a [] (le_bytes 4 r.b ++ le_bytes 4 r.c ++ le_bytes 4 r.d) 0 rfl
  have e1 := load_le_bytes r.b (le_bytes 4 r.a) (le_bytes 4 r.c ++ le_bytes 4 r.d) 1 rfl
  have e2 := load_le_bytes r.c (le_bytes 4 r.a ++ le_bytes 4 r.b) (le_bytes 4 r.d) 2 rfl
  have e3 := load_le_bytes r.d (le_bytes 4 r.a ++ le_bytes 4 r.b ++ le_bytes 4 r.c) [] 3 rfl
  rw [Nat.mod_eq_of_lt ha] at e0
  rw [Nat.mod_eq_of_lt hb] at e1
  rw [Nat.mod_eq_of_lt hc] at e2
  rw [Nat.mod_eq_of_lt hd] at e3
  simp only [List.nil_append, List.append_nil, List.append_assoc] at e0 e1 e2 e3
  simp only [serialize, List.append_assoc]
  exact ⟨e0, e1, e2, e3⟩

/-! ## The claims -/

/-- C1: for every byte sequence `m` (and whatever the local context of
`md4_get_digest` holds before `md4_init`), `md4_get_digest` returns the reference
MD4 of `m`: the padded message `m ++ [0x80] ++ zeros ++ length`, split into 64-byte
blocks, folded with the single-block compression transform from the initial state
and serialized little-endian. -/
theorem md4_get_digest_is_reference (P : Platform) (stack : md4_context) (m : List Byte) :
    md4_get_digest P stack m =
      some (serialize ((split_blocks (m ++ [0x80] ++ List.replicate (pad_zeros m.length) 0 ++
        le_bytes 8 (8 * m.length % 2 ^ 64))).foldl (md4_compress P) md4_iv)) :=
  md4_get_digest_eq_reference P stack m

/-- C2: chunking invariance. Whatever the split of the message into chunks (empty
chunks included), `md4_init`, one `md4_update` per chunk and `md4_final` return a
digest, and it is the digest `md4_get_digest` returns on the concatenation. -/
theorem md4_stream_chunking_invariant (P : Platform) (ctx stack : md4_context)
    (chunks : List (List Byte)) :
    md4_stream P ctx chunks = md4_get_digest P stack chunks.flatten ∧
      ∃ digest, md4_stream P ctx chunks = some digest := by
  rw [md4_stream_eq_reference, md4_get_digest_eq_reference]
  exact ⟨rfl, _, rfl⟩

set_option maxRecDepth 100000 in
/-- C3: `md4_get_digest` reproduces the five known-answer vectors of RFC 1320, on
every platform configuration and whatever its local context held. -/
theorem md4_get_digest_known_answers (P : Platform) (stack : md4_context) :
    (md4_get_digest P stack (ascii "")).map hex = some "31d6cfe0d16ae931b73c59d7e0c089c0" ∧
    (md4_get_digest P stack (ascii "a")).map hex = some "bde52cb31de33e46245e05fbdbd6fb24" ∧
    (md4_get_digest P stack (ascii "abc")).map hex = some "a448017aaf21d8525fc10ae87aa6729d" ∧
    (md4_get_digest P stack (ascii "message digest")).map hex =
      some "d9130a8164549fe818874806e1c7014b" ∧
    (md4_get_digest P stack (ascii "abcdefghijklmnopqrstuvwxyz")).map hex =
      some "d79e1c308aa5bbcdeea8ed63df412da9" := by
  simp only [md4_get_digest_eq_reference, md4_reference_platform P lp64]
  decide

/-- C4: state hygiene. On every context `md4_final` returns, and the context it
leaves has all its storage zero: the four state words, both counter limbs, the 64
buffer bytes (and the scratch words of the portable `SET`). -/
theorem md4_final_erases_context (P : Platform) (ctx : md4_context) :
    ∃ digest ctx', md4_final P ctx = some (digest, ctx') ∧
      ctx'.a = 0 ∧ ctx'.b = 0 ∧ ctx'.c = 0 ∧ ctx'.d = 0 ∧ ctx'.lo = 0 ∧ ctx'.hi = 0 ∧
      ctx'.buffer.val = List.replicate 64 0 ∧ ∀ n, ctx'.block n = 0 :=
  ⟨_, _, md4_final_spec P ctx, rfl, rfl, rfl, rfl, rfl, rfl, rfl, fun _ => rfl⟩

/-- C5: the counter invariant. `md4_init` leaves `lo` below `2 ^ 29` whatever the
context held before (a stale `lo` of `2 ^ 29` or more included). `md4_update` with
data of any length, on a context whose `lo` is below `2 ^ 29`, returns a context
whose `lo` is below `2 ^ 29`; with non-empty data it does so from any context, the
hypothesis serving only the early return on empty data. Hence `lo` is below
`2 ^ 29` after `md4_init` on any context followed by any `md4_update` calls. -/
theorem md4_counter_lo_invariant (P : Platform) (stale ctx : md4_context)
    (data : List Byte) (chunks : List (List Byte)) :
    (md4_init stale).lo < 2 ^ 29 ∧
    (ctx.lo < 2 ^ 29 → ∃ ctx', md4_update P ctx data = some ctx' ∧ ctx'.lo < 2 ^ 29) ∧
    (data ≠ [] → ∃ ctx', md4_update P ctx data = some ctx' ∧ ctx'.lo < 2 ^ 29) ∧
    ∃ c, md4_updates P (md4_init stale) chunks = some c ∧ c.lo < 2 ^ 29 := by
  refine ⟨by simp [md4_init], md4_update_lo_lt P ctx data, ?_, ?_⟩
  · intro hne
    obtain ⟨c, hc, U⟩ := md4_update_spec P ctx data hne
    exact ⟨c, hc, by rw [U.lo_eq]; exact Nat.mod_lt _ (by decide)⟩
  · obtain ⟨c, hc, h⟩ := absorbed_of_chunks P stale chunks
    exact ⟨c, hc, by rw [h.lo_eq]; exact Nat.mod_lt _ (by decide)⟩

/-- C5, at concrete inputs: `md4_init` on a context whose stale `lo` is `2 ^ 30`, and
`md4_update` with three bytes on a context whose `lo` is 0. -/
theorem md4_counter_lo_invariant_witness :
    ¬ ({ zero_context with lo := 2 ^ 30 } : md4_context).lo < 2 ^ 29 ∧
    (md4_init { zero_context with lo := 2 ^ 30 }).lo < 2 ^ 29 ∧
    zero_context.lo < 2 ^ 29 ∧ ascii "abc" ≠ [] ∧
    ∃ ctx', md4_update lp64 zero_context (ascii "abc") = some ctx' ∧ ctx'.lo < 2 ^ 29 := by
  obtain ⟨h1, h2, h3, _⟩ :=
    md4_counter_lo_invariant lp64 { zero_context with lo := 2 ^ 30 } zero_context
      (ascii "abc") []
  have hne : ascii "abc" ≠ [] := by decide
  have _ := h3 hne
  exact ⟨by decide, h1, by decide, hne, h2 (by decide)⟩

/-- C6: the two-limb counter tracks the message length. After `md4_init` and
`md4_update` calls whose data lengths sum to `n`, `hi * 2 ^ 29 + lo` is congruent to
`n` modulo `2 ^ 61`, and equal to `n` when `n < 2 ^ 61`. In one counter update from a
context with `lo < 2 ^ 29`, the carry test holds exactly when the low 29 bits
overflow, and the new limbs are the low 29 bits of `lo + size` and `hi` plus the
rest of `lo + size`. -/
theorem md4_counter_tracks_length (P : Platform) (ctx : md4_context)
    (chunks : List (List Byte)) :
    (∃ c, md4_updates P (md4_init ctx) chunks = some c ∧
      (c.hi * 2 ^ 29 + c.lo) % 2 ^ 61 = (chunks.map List.length).sum % 2 ^ 61 ∧
      ((chunks.map List.length).sum < 2 ^ 61 →
        c.hi * 2 ^ 29 + c.lo = (chunks.map List.length).sum)) ∧
    ∀ (s : md4_context) (size : Nat), s.lo < 2 ^ 29 →
      (((s.lo + size) &&& 0x1fffffff) < s.lo ↔ 2 ^ 29 ≤ s.lo + size % 2 ^ 29) ∧
      (md4_update_counter P s size).lo = (s.lo + size) % 2 ^ 29 ∧
      (md4_update_counter P s size).hi =
        (s.hi + (s.lo + size) / 2 ^ 29) % 2 ^ P.fast32_bits := by
  constructor
  · obtain ⟨c, hc, h⟩ := absorbed_of_chunks P ctx chunks
    refine ⟨c, hc, ?_⟩
    have hw := P.fast32_ge
    have h32 : (2 : Nat) ^ 32 ∣ 2 ^ P.fast32_bits := Nat.pow_dvd_pow 2 hw
    have hle : (2 : Nat) ^ 32 ≤ 2 ^ P.fast32_bits := Nat.pow_le_pow_right (by decide) hw
    have hlo := h.lo_eq
    have hhi := h.hi_eq
    have hhi32 : c.hi % 2 ^ 32 = chunks.flatten.length / 2 ^ 29 % 2 ^ 32 := by
      rw [hhi, Nat.mod_mod_of_dvd _ h32]
    rw [List.length_flatten] at hlo hhi hhi32
    constructor
    · omega
    · intro hn
      rw [Nat.mod_eq_of_lt (by omega)] at hhi
      omega
  · intro s size hs
    refine ⟨?_, counter_lo P s size, counter_hi_exact P s size hs⟩
    rw [and_0x1fffffff]
    omega

/-- C6, at a concrete input: five bytes in two chunks. -/
theorem md4_counter_tracks_length_witness :
    ∃ c, md4_updates lp64 (md4_init zero_context) [ascii "abc", ascii "de"] = some c ∧
      c.hi * 2 ^ 29 + c.lo = 5 := by
  obtain ⟨⟨c, hc, _, h⟩, _⟩ :=
    md4_counter_tracks_length lp64 zero_context [ascii "abc", ascii "de"]
  exact ⟨c, hc, h (by decide)⟩

/-- C7: the buffer invariant. After `md4_init` and `md4_update` calls whose data
concatenates to `m`, `used = lo & 0x3f` is `|m| mod 64`, below 64, and the first
`used` bytes of the buffer are the last `used` bytes of `m`, those after its last
complete 64-byte block. -/
theorem md4_buffer_invariant (P : Platform) (ctx : md4_context) (chunks : List (List Byte)) :
    ∃ c, md4_updates P (md4_init ctx) chunks = some c ∧
      c.lo &&& 0x3f = chunks.flatten.length % 64 ∧
      c.lo &&& 0x3f < 64 ∧
      c.buffer.val.take (c.lo &&& 0x3f) =
        chunks.flatten.drop (chunks.flatten.length - (c.lo &&& 0x3f)) ∧
      chunks.flatten.length - (c.lo &&& 0x3f) = 64 * (chunks.flatten.length / 64) := by
  obtain ⟨c, hc, h⟩ := absorbed_of_chunks P ctx chunks
  have hu : c.lo &&& 0x3f = chunks.flatten.length % 64 := by
    rw [and_0x3f, h.lo_eq]; omega
  have hd : chunks.flatten.length - chunks.flatten.length % 64 =
      64 * (chunks.flatten.length / 64) := by omega
  refine ⟨c, hc, hu, ?_, ?_, ?_⟩
  · rw [hu]; exact Nat.mod_lt _ (by decide)
  · rw [hu, hd]; exact h.buf_eq
  · rw [hu, hd]

/-- C8: the length field. For a context reached by `md4_init` and `md4_update` calls
absorbing `n` bytes, `lo << 3` loses no bit, and the block `md4_final` compresses
last holds at offsets 56 to 63 the little-endian encoding of `8 * n mod 2 ^ 64`:
`lo << 3` in bytes 56 to 59, the low 32 bits of `hi` in bytes 60 to 63. -/
theorem md4_final_length_field (P : Platform) (ctx : md4_context) (chunks : List (List Byte)) :
    ∃ c digest c' blk, md4_updates P (md4_init ctx) chunks = some c ∧
      8 * c.lo < 2 ^ 32 ∧ (c.lo <<< 3) % 2 ^ P.fast32_bits = 8 * c.lo ∧
      md4_final P c = some (digest, c') ∧
      c'.trace.getLast? = some (Event.compress blk) ∧ blk.length = 64 ∧
      blk.drop 56 = le_bytes 8 (8 * chunks.flatten.length % 2 ^ 64) ∧
      blk.drop 56 = le_bytes 4 (c.lo <<< 3) ++ le_bytes 4 (c.hi % 2 ^ 32) := by
  obtain ⟨c, hc, h⟩ := absorbed_of_chunks P ctx chunks
  have hw := P.fast32_ge
  have hle : (2 : Nat) ^ 32 ≤ 2 ^ P.fast32_bits := Nat.pow_le_pow_right (by decide) hw
  have hlo : c.lo < 2 ^ 29 := by rw [h.lo_eq]; exact Nat.mod_lt _ (by decide)
  have hbits : (c.lo <<< 3) % 2 ^ P.fast32_bits = 8 * c.lo := by
    rw [Nat.shiftLeft_eq, Nat.mod_eq_of_lt (by omega)]; omega
  refine ⟨c, _, _, final_last_block P c, hc, by omega, hbits, absorbed_final P c _ h,
    final_trace_getLast _ P c, final_last_block_length P c, ?_, ?_⟩
  · rw [final_last_block_drop, length_bytes_absorbed h]
  · rw [final_last_block_drop]
    simp only [length_bytes, hbits]
    simp only [le_bytes, Nat.shiftRight_eq_div_pow, Nat.shiftLeft_eq,
      List.cons_append, List.nil_append, List.cons.injEq, and_true]
    refine ⟨?_, ?_, ?_, ?_, ?_, ?_, ?_, ?_⟩ <;> apply toByte_eq_of_mod <;> omega

/-- C9: the digest of `md4_final` has exactly 16 bytes (the `digest_size` of
`hash_method_md4`, whose `block_size` is 64), and it is the little-endian
serialization of the four state words left by the last compression: the word
loader `SET` applied to the digest at index 0, 1, 2, 3 gives back `a`, `b`, `c`,
`d`. -/
theorem md4_final_digest_serialization (P : Platform) (ctx : md4_context) :
    ∃ digest ctx' r, md4_final P ctx = some (digest, ctx') ∧
      r = absorb P ((final_input P ctx).length / 64) (regs32 ctx) (final_input P ctx) ∧
      digest.length = 16 ∧ (hash_method_md4 P).digest_size = 16 ∧
      (hash_method_md4 P).block_size = 64 ∧
      digest = le_bytes 4 r.a ++ le_bytes 4 r.b ++ le_bytes 4 r.c ++ le_bytes 4 r.d ∧
      (SET P ctx.block digest 0).1 = r.a ∧ (SET P ctx.block digest 1).1 = r.b ∧
      (SET P ctx.block digest 2).1 = r.c ∧ (SET P ctx.block digest 3).1 = r.d := by
  have hfl := final_input_length P ctx
  have hk : 0 < (final_input P ctx).length / 64 := by
    rw [hfl]; split <;> decide
  have hb := absorb_bounded P _ (regs32 ctx) (final_input P ctx) hk
  obtain ⟨h0, h1, h2, h3⟩ := serialize_words _ hb
  refine ⟨_, _, _, md4_final_spec P ctx, rfl, rfl, rfl, rfl, rfl, ?_, ?_, ?_, ?_⟩
  · rw [SET_fst]; exact h0
  · rw [SET_fst]; exact h1
  · rw [SET_fst]; exact h2
  · rw [SET_fst]; exact h3

/-- C10: the digest does not depend on what the context held before `md4_init`. For
any two contexts and any chunks, the streaming use returns a digest on both, and
the same one. -/
theorem md4_stream_independent_of_context (P : Platform) (c1 c2 : md4_context)
    (chunks : List (List Byte)) :
    md4_stream P c1 chunks = md4_stream P c2 chunks ∧
      ∃ digest, md4_stream P c1 chunks = some digest := by
  rw [md4_stream_eq_reference, md4_stream_eq_reference]
  exact ⟨rfl, _, rfl⟩

/-! ## The word loader and the tabulated compression -/

theorem le_word_eq_load (blk : List Byte) (i : Nat) : le_word blk i = load_le32 blk i := by
  unfold le_word load_le32
  rw [Nat.mul_comm 4 i]

theorem GET_SET (P : Platform) (block : Fin 16 → Nat) (ptr : List Byte) (n : Fin 16) :
    GET P (SET P block ptr n).2 ptr n = (SET P block ptr n).1 := by
  unfold GET SET
  cases P.unaligned_le <;> simp

theorem STEP_eq_rotl32 (f : Nat → Nat → Nat → Nat) (a b c d x k s : Nat) :
    STEP f a b c d (x + k) s = rotl32 (a + f b c d + x + k) s := by
  simp only [STEP, rotl32, Nat.add_assoc, Nat.mod_mod]

theorem range16 : List.range 16 = [0, 1, 2, 3, 4, 5, 6, 7, 8, 9, 10, 11, 12, 13, 14, 15] := rfl

theorem spec_step_0 (f : Nat → Nat → Nat → Nat) (k : Nat) (X : Nat → Nat) (a b c d idx s : Nat) :
    spec_step f k X ⟨a, b, c, d⟩ 0 idx s = ⟨STEP f a b c d (X idx + k) s, b, c, d⟩ := by
  rw [STEP_eq_rotl32]; rfl

theorem spec_step_1 (f : Nat → Nat → Nat → Nat) (k : Nat) (X : Nat → Nat) (a b c d idx s : Nat) :
    spec_step f k X ⟨a, b, c, d⟩ 1 idx s = ⟨a, b, c, STEP f d a b c (X idx + k) s⟩ := by
  rw [STEP_eq_rotl32]; rfl

theorem spec_step_2 (f : Nat → Nat → Nat → Nat) (k : Nat) (X : Nat → Nat) (a b c d idx s : Nat) :
    spec_step f k X ⟨a, b, c, d⟩ 2 idx s = ⟨a, b, STEP f c d a b (X idx + k) s, d⟩ := by
  rw [STEP_eq_rotl32]; rfl

theorem spec_step_3 (f : Nat → Nat → Nat → Nat) (k : Nat) (X : Nat → Nat) (a b c d idx s : Nat) :
    spec_step f k X ⟨a, b, c, d⟩ 3 idx s = ⟨a, STEP f b c d a (X idx + k) s, c, d⟩ := by
  rw [STEP_eq_rotl32]; rfl

set_option maxRecDepth 100000 in
theorem round1_eq_spec (P : Platform) (r : Regs) (block : Fin 16 → Nat) (ptr : List Byte) :
    (round1 P r block ptr).1 =
      spec_round F 0 (List.range 16) [3, 7, 11, 19] (le_word ptr) r := by
  have hw : le_word ptr = load_le32 ptr := funext (le_word_eq_load ptr)
  obtain ⟨a, b, c, d⟩ := r
  rw [hw]
  simp only [spec_round, range16, List.foldl_cons, List.foldl_nil, List.getD_cons_zero,
    List.getD_cons_succ, Nat.reduceMod]
  simp only [spec_step_0, spec_step_1, spec_step_2, spec_step_3, Nat.add_zero]
  simp only [round1, SET_fst]
  rfl

set_option maxRecDepth 100000 in
theorem round2_eq_spec (P : Platform) (r : Regs) (block : Fin 16 → Nat) (ptr : List Byte)
    (h : ∀ n, GET P block ptr n = load_le32 ptr n.val) :
    round2 P r block ptr = spec_round spec_majority 0x5A827999
      [0, 4, 8, 12, 1, 5, 9, 13, 2, 6, 10, 14, 3, 7, 11, 15] [3, 5, 9, 13] (le_word ptr) r := by
  have hw : le_word ptr = load_le32 ptr := funext (le_word_eq_load ptr)
  obtain ⟨a, b, c, d⟩ := r
  rw [hw]
  simp only [spec_round, range16, List.foldl_cons, List.foldl_nil, List.getD_cons_zero,
    List.getD_cons_succ, Nat.reduceMod]
  simp only [spec_step_0, spec_step_1, spec_step_2, spec_step_3]
  simp only [round2, h]
  rfl

set_option maxRecDepth 100000 in
theorem round3_eq_spec (P : Platform) (r : Regs) (block : Fin 16 → Nat) (ptr : List Byte)
    (h : ∀ n, GET P block ptr n = load_le32 ptr n.val) :
    round3 P r block ptr = spec_round spec_parity 0x6ED9EBA1
      [0, 8, 4, 12, 2, 10, 6, 14, 1, 9, 5, 13, 3, 11, 7, 15] [3, 9, 11, 15] (le_word ptr) r := by
  have hw : le_word ptr = load_le32 ptr := funext (le_word_eq_load ptr)
  obtain ⟨a, b, c, d⟩ := r
  rw [hw]
  simp only [spec_round, range16, List.foldl_cons, List.foldl_nil, List.getD_cons_zero,
    List.getD_cons_succ, Nat.reduceMod]
  simp only [spec_step_0, spec_step_1, spec_step_2, spec_step_3]
  simp only [round3, h]
  rfl

theorem body_block_eq_spec (P : Platform) (r : Regs) (block : Fin 16 → Nat) (blk : List Byte) :
    (body_block P r block blk).1 = spec_compress r blk := by
  have hg := GET_round1 P r block blk
  simp only [body_block, spec_compress]
  rw [round1_eq_spec, round2_eq_spec P _ _ blk hg, round3_eq_spec P _ _ blk hg]

theorem md4_compress_eq_spec (P : Platform) (r : Regs) (blk : List Byte) :
    md4_compress P r blk = spec_compress r blk :=
  body_block_eq_spec P r _ blk

/-! ## The function `F` -/

theorem F_eq_select (x y z : Nat) (hx : x < 2 ^ 32) (hz : z < 2 ^ 32) :
    F x y z = spec_select x y z := by
  unfold F spec_select
  have hc : (0xffffffff : Nat) - x = 2 ^ 32 - (x + 1) := by omega
  rw [hc]
  apply Nat.eq_of_testBit_eq
  intro i
  simp only [Nat.testBit_xor, Nat.testBit_and, Nat.testBit_or, Nat.testBit_two_pow_sub_succ hx]
  by_cases hi : i < 32
  · simp only [hi, decide_True, Bool.true_and]
    cases x.testBit i <;> cases y.testBit i <;> cases z.testBit i <;> rfl
  · have hxi : x.testBit i = false :=
      Nat.testBit_lt_two_pow (Nat.lt_of_lt_of_le hx (Nat.pow_le_pow_right (by decide) (by omega)))
    have hzi : z.testBit i = false :=
      Nat.testBit_lt_two_pow (Nat.lt_of_lt_of_le hz (Nat.pow_le_pow_right (by decide) (by omega)))
    simp [hi, hxi, hzi]

/-! ## Reading the ghost trace -/

theorem compressed_blocks_append (a b : List Event) :
    compressed_blocks (a ++ b) = compressed_blocks a ++ compressed_blocks b := by
  unfold compressed_blocks
  exact List.filterMap_append _ _ _

theorem calls_of_append (a b : List Event) : calls_of (a ++ b) = calls_of a ++ calls_of b := by
  unfold calls_of
  exact List.filterMap_append _ _ _

theorem writes_of_append (a b : List Event) :
    writes_of (a ++ b) = writes_of a ++ writes_of b := by
  unfold writes_of
  exact List.filterMap_append _ _ _

theorem compressed_blocks_map (l : List (List Byte)) :
    compressed_blocks (l.map Event.compress) = l := by
  induction l with
  | nil => rfl
  | cons b l ih =>
    simp only [List.map, compressed_blocks, List.filterMap_cons] at ih ⊢
    rw [ih]

theorem calls_of_map (l : List (List Byte)) : calls_of (l.map Event.compress) = [] := by
  induction l with
  | nil => rfl
  | cons b l ih =>
    simp only [List.map, calls_of, List.filterMap_cons] at ih ⊢
    rw [ih]

theorem writes_of_map (l : List (List Byte)) : writes_of (l.map Event.compress) = [] := by
  induction l with
  | nil => rfl
  | cons b l ih =>
    simp only [List.map, writes_of, List.filterMap_cons] at ih ⊢
    rw [ih]

theorem compressed_blocks_cons_write (off len : Nat) (ev : List Event) :
    compressed_blocks (Event.write off len :: ev) = compressed_blocks ev := rfl

theorem compressed_blocks_cons_call (avail size : Nat) (ev : List Event) :
    compressed_blocks (Event.call avail size :: ev) = compressed_blocks ev := rfl

theorem compressed_blocks_cons_compress (blk : List Byte) (ev : List Event) :
    compressed_blocks (Event.compress blk :: ev) = blk :: compressed_blocks ev := rfl

theorem calls_of_cons_write (off len : Nat) (ev : List Event) :
    calls_of (Event.write off len :: ev) = calls_of ev := rfl

theorem calls_of_cons_call (avail size : Nat) (ev : List Event) :
    calls_of (Event.call avail size :: ev) = (avail, size) :: calls_of ev := rfl

theorem calls_of_cons_compress (blk : List Byte) (ev : List Event) :
    calls_of (Event.compress blk :: ev) = calls_of ev := rfl

theorem writes_of_cons_write (off len : Nat) (ev : List Event) :
    writes_of (Event.write off len :: ev) = (off, len) :: writes_of ev := rfl

theorem writes_of_cons_call (avail size : Nat) (ev : List Event) :
    writes_of (Event.call avail size :: ev) = writes_of ev := rfl

theorem writes_of_cons_compress (blk : List Byte) (ev : List Event) :
    writes_of (Event.compress blk :: ev) = writes_of ev := rfl

theorem compressed_blocks_update_rest (y : List Byte) :
    compressed_blocks (update_rest_trace y) = chunks64 (y.length / 64) y := by
  unfold update_rest_trace
  split
  · rw [compressed_blocks_append, compressed_blocks_cons_call, compressed_blocks_map]
    simp [compressed_blocks]
  · rename_i h
    have hk : y.length / 64 = 0 := by omega
    rw [hk]
    rfl

theorem calls_of_update_rest (y : List Byte) :
    calls_of (update_rest_trace y) =
      if y.length ≥ 64 then [(y.length, clear_low6 y.length)] else [] := by
  unfold update_rest_trace
  split
  · rw [calls_of_append, calls_of_cons_call, calls_of_map, clear_low6_eq]
    rfl
  · rfl

theorem writes_of_update_rest (y : List Byte) :
    writes_of (update_rest_trace y) = [(0, y.length % 64)] := by
  unfold update_rest_trace
  split
  · rw [writes_of_append, writes_of_cons_call, writes_of_map]
    rfl
  · rename_i h
    have hm : y.length % 64 = y.length := by omega
    rw [hm]
    rfl

theorem compressed_blocks_update (used : Nat) (pend data : List Byte)
    (hp : pend.length = used) (hu : used < 64) :
    compressed_blocks (update_trace used pend data) =
      chunks64 ((pend ++ data).length / 64) (pend ++ data) := by
  have hxl : (pend ++ data).length = used + data.length := by rw [List.length_append, hp]
  unfold update_trace
  split
  · rename_i h0
    have hk : (pend ++ data).length / 64 = 0 := by rw [hxl]; omega
    rw [hk]; rfl
  · split
    · rename_i h0 hu0
      have hpe : pend = [] := List.length_eq_zero.mp (by rw [hp, hu0])
      rw [hpe, List.nil_append]
      exact compressed_blocks_update_rest data
    · split
      · rename_i h0 hu0 hs
        have hk : (pend ++ data).length / 64 = 0 := by rw [hxl]; omega
        rw [hk]; rfl
      · rename_i h0 hu0 hs
        have hy : (data.drop (64 - used)).length = data.length - (64 - used) :=
          List.length_drop _ _
        have hk : (pend ++ data).length / 64 = (data.drop (64 - used)).length / 64 + 1 := by
          rw [hxl, hy]; omega
        have ht : (pend ++ data).take 64 = pend ++ data.take (64 - used) := by
          rw [List.take_append_eq_append_take, hp,
            List.take_of_length_le (by rw [hp]; omega : pend.length ≤ 64)]
        have hd : (pend ++ data).drop 64 = data.drop (64 - used) := by
          rw [List.drop_append_eq_append_drop, hp,
            List.drop_of_length_le (by rw [hp]; omega : pend.length ≤ 64), List.nil_append]
        rw [compressed_blocks_append, compressed_blocks_update_rest, hk]
        simp only [chunks64, ht, hd]
        rfl

theorem calls_of_update (used : Nat) (pend data : List Byte) :
    calls_of (update_trace used pend data) =
      if data.length = 0 then []
      else if used = 0 then
        (if data.length ≥ 64 then [(data.length, clear_low6 data.length)] else [])
      else if data.length < 64 - used then []
      else (64, 64) ::
        (if (data.drop (64 - used)).length ≥ 64 then
          [((data.drop (64 - used)).length, clear_low6 (data.drop (64 - used)).length)]
        else []) := by
  unfold update_trace
  split
  · rfl
  · split
    · exact calls_of_update_rest data
    · split
      · rfl
      · rw [calls_of_append, calls_of_update_rest]
        rfl

theorem writes_of_update (used : Nat) (pend data : List Byte) :
    writes_of (update_trace used pend data) =
      if data.length = 0 then []
      else if used = 0 then [(0, data.length % 64)]
      else if data.length < 64 - used then [(used, data.length)]
      else [(used, 64 - used), (0, (data.drop (64 - used)).length % 64)] := by
  unfold update_trace
  split
  · rfl
  · split
    · exact writes_of_update_rest data
    · split
      · rfl
      · rw [writes_of_append, writes_of_update_rest]
        rfl

theorem calls_of_update_ok (used : Nat) (pend data : List Byte) :
    (calls_of (update_trace used pend data)).all call_ok = true ∧
    (calls_of (update_trace used pend data)).all call_shape = true := by
  have hc : ∀ n, 64 ≤ n → call_ok (n, clear_low6 n) = true ∧ call_shape (n, clear_low6 n) = true := by
    intro n hn
    simp only [call_ok, call_shape, clear_low6_eq, decide_eq_true_eq]
    exact ⟨⟨by omega, by omega, by omega⟩, Or.inr ⟨hn, trivial⟩⟩
  have h64 : call_ok (64, 64) = true ∧ call_shape (64, 64) = true := by decide
  rw [calls_of_update]
  split
  · exact ⟨rfl, rfl⟩
  · split
    · split
      · rename_i h
        simp only [List.all_cons, List.all_nil, Bool.and_true]
        exact hc _ h
      · exact ⟨rfl, rfl⟩
    · split
      · exact ⟨rfl, rfl⟩
      · split
        · rename_i h
          simp only [List.all_cons, List.all_nil, Bool.and_true, h64.1, h64.2, Bool.true_and]
          exact hc _ h
        · simp only [List.all_cons, List.all_nil, Bool.and_true]
          exact h64

theorem writes_of_update_ok (used : Nat) (pend data : List Byte) (hu : used < 64) :
    (writes_of (update_trace used pend data)).all write_ok = true := by
  rw [writes_of_update]
  split
  · rfl
  · split
    · simp only [List.all_cons, List.all_nil, Bool.and_true, write_ok, decide_eq_true_eq]
      omega
    · split
      · simp only [List.all_cons, List.all_nil, Bool.and_true, write_ok, decide_eq_true_eq]
        omega
      · simp only [List.all_cons, List.all_nil, Bool.and_true, write_ok, decide_eq_true_eq,
          Bool.and_eq_true]
        omega

/-! ## The trace of `md4_final` -/

theorem md4_final_trace (P : Platform) (ctx : md4_context) :
    ∃ digest ctx', md4_final P ctx = some (digest, ctx') ∧
      ctx'.trace = ctx.trace ++ final_trace (ctx.lo % 64) (final_input P ctx) :=
  ⟨_, _, md4_final_spec P ctx, rfl⟩

theorem final_input_one_block (P : Platform) (ctx : md4_context) (h : ctx.lo % 64 < 56) :
    final_input P ctx =
      pending ctx ++ [0x80] ++ List.replicate (55 - ctx.lo % 64) 0 ++ length_bytes P ctx := by
  simp only [final_input, final_tail, if_pos h, List.append_assoc]

theorem final_input_two_blocks (P : Platform) (ctx : md4_context) (h : ¬ ctx.lo % 64 < 56) :
    (final_input P ctx).take 64 = pending ctx ++ [0x80] ++ List.replicate (63 - ctx.lo % 64) 0 ∧
    (final_input P ctx).drop 64 = List.replicate 56 0 ++ length_bytes P ctx := by
  have hp := pending_length ctx
  have hlt : ctx.lo % 64 < 64 := Nat.mod_lt _ (by decide)
  have h119 : 119 - ctx.lo % 64 = (63 - ctx.lo % 64) + 56 := by omega
  have hl : (pending ctx ++ [0x80] ++ List.replicate (63 - ctx.lo % 64) (0 : Byte)).length = 64 := by
    simp only [List.length_append, hp, List.length_singleton, List.length_replicate]
    omega
  have he : final_input P ctx =
      (pending ctx ++ [0x80] ++ List.replicate (63 - ctx.lo % 64) 0) ++
        (List.replicate 56 0 ++ length_bytes P ctx) := by
    simp only [final_input, final_tail, if_neg h, h119, List.replicate_add, List.append_assoc]
  rw [he]
  exact ⟨List.take_left' hl, List.drop_left' hl⟩

theorem compressed_blocks_final (used : Nat) (x : List Byte) :
    compressed_blocks (final_trace used x) =
      if used < 56 then [x] else [x.take 64, x.drop 64] := by
  unfold final_trace final_rest_trace
  split <;> rfl

theorem calls_of_final (used : Nat) (x : List Byte) :
    calls_of (final_trace used x) =
      if used < 56 then [(64, 64)] else [(64, 64), (64, 64)] := by
  unfold final_trace final_rest_trace
  split <;> rfl

theorem writes_of_final (used : Nat) (x : List Byte) :
    writes_of (final_trace used x) =
      if used < 56 then
        [(used, 1), (used + 1, 56 - (used + 1)), (56, 1), (57, 1), (58, 1), (59, 1), (60, 1),
          (61, 1), (62, 1), (63, 1)]
      else
        [(used, 1), (used + 1, 63 - used), (0, 56 - 0), (56, 1), (57, 1), (58, 1), (59, 1),
          (60, 1), (61, 1), (62, 1), (63, 1)] := by
  unfold final_trace final_rest_trace
  split <;> rfl

/-! ## More on the loop of `body` -/

theorem chunks64_len (k : Nat) : ∀ l : List Byte, (chunks64 k l).length = k := by
  induction k with
  | zero => intro l; rfl
  | succ k ih => intro l; simp only [chunks64, List.length_cons, ih]

theorem chunks64_take (k : Nat) (l : List Byte) (h : 64 * k ≤ l.length) :
    chunks64 k l = chunks64 k (l.take (64 * k)) := by
  have hl : (l.take (64 * k)).length = 64 * k := by rw [List.length_take]; omega
  have := chunks64_append_left k _ (l.drop (64 * k)) hl
  rwa [List.take_append_drop] at this

theorem chunks64_flatten_take (k : Nat) (l : List Byte) (h : 64 * k ≤ l.length) :
    (chunks64 k l).flatten = l.take (64 * k) := by
  have hl : (l.take (64 * k)).length = 64 * k := by rw [List.length_take]; omega
  rw [chunks64_take k l h]
  exact chunks64_flatten k _ hl

theorem absorb_take (P : Platform) (k : Nat) (r : Regs) (l : List Byte)
    (h : 64 * k ≤ l.length) : absorb P k r l = absorb P k r (l.take (64 * k)) := by
  unfold absorb
  rw [chunks64_take k l h]

theorem body_loop_fuel (P : Platform) (k : Nat) :
    ∀ (fuel : Nat) (r : Regs) (ctx : md4_context) (ptr : List Byte),
      fuel ≤ k → body_loop P fuel r ctx ptr (64 * (k + 1)) = none := by
  induction k with
  | zero =>
    intro fuel r ctx ptr h
    have : fuel = 0 := by omega
    subst this
    rfl
  | succ k ih =>
    intro fuel r ctx ptr h
    cases fuel with
    | zero => rfl
    | succ f =>
      have h2 : wsub P (64 * (k + 1 + 1)) 64 = 64 * (k + 1) := by
        rw [wsub_of_le P (by omega)]; omega
      have h3 : 64 * (k + 1) ≠ 0 := by omega
      simp only [body_loop, h2, ne_eq, h3, not_false_eq_true, if_true]
      split
      · rfl
      · exact ih f _ _ _ (by omega)

theorem body_loop_short (P : Platform) (k : Nat) :
    ∀ (fuel : Nat) (r : Regs) (ctx : md4_context) (ptr : List Byte),
      ptr.length < 64 * (k + 1) → body_loop P fuel r ctx ptr (64 * (k + 1)) = none := by
  induction k with
  | zero =>
    intro fuel r ctx ptr h
    cases fuel with
    | zero => rfl
    | succ f =>
      have h1 : ptr.length < 64 := by omega
      simp only [body_loop, h1, if_true]
  | succ k ih =>
    intro fuel r ctx ptr h
    cases fuel with
    | zero => rfl
    | succ f =>
      have h2 : wsub P (64 * (k + 1 + 1)) 64 = 64 * (k + 1) := by
        rw [wsub_of_le P (by omega)]; omega
      have h3 : 64 * (k + 1) ≠ 0 := by omega
      simp only [body_loop, h2, ne_eq, h3, not_false_eq_true, if_true]
      split
      · rfl
      · exact ih f _ _ _ (by rw [List.length_drop]; omega)

theorem body_short (P : Platform) (ctx : md4_context) (data : List Byte) (k : Nat)
    (hk : 0 < k) (h : data.length < 64 * k) : body P ctx data (64 * k) = none := by
  obtain ⟨j, rfl⟩ : ∃ j, k = j + 1 := ⟨k - 1, by omega⟩
  unfold body
  simp only [body_loop_short P j _ _ _ _ h, Option.map_none']

theorem body_loop_isSome (P : Platform) (k : Nat) (fuel : Nat) (r : Regs) (ctx : md4_context)
    (ptr : List Byte) (hlen : 64 * (k + 1) ≤ ptr.length) :
    (body_loop P fuel r ctx ptr (64 * (k + 1))).isSome = decide (k + 1 ≤ fuel) := by
  by_cases h : k + 1 ≤ fuel
  · obtain ⟨blk, hb⟩ := body_loop_spec P k fuel r ctx ptr hlen h
    rw [hb]
    simp [h]
  · rw [body_loop_fuel P k fuel r ctx ptr (by omega)]
    simp [h]

/-! ## The blocks compressed while streaming -/

theorem absorbed_update_trace (P : Platform) (ctx : md4_context) (m data : List Byte)
    (h : Absorbed P ctx m) :
    ∃ ctx' ev, md4_update P ctx data = some ctx' ∧ Absorbed P ctx' (m ++ data) ∧
      ctx'.trace = ctx.trace ++ ev ∧
      chunks64 (m.length / 64) m ++ compressed_blocks ev =
        chunks64 ((m ++ data).length / 64) (m ++ data) := by
  obtain ⟨c1, hc1, h1⟩ := absorbed_update P ctx m data h
  by_cases hne : data = []
  · subst hne
    have : c1 = ctx := by
      have h0 : md4_update P ctx [] = some ctx := by simp [md4_update]
      rw [h0] at hc1
      exact (Option.some.inj hc1).symm
    subst this
    exact ⟨c1, [], hc1, h1, by rw [List.append_nil], by
      rw [List.append_nil]; exact List.append_nil _⟩
  · obtain ⟨c2, hc2, U⟩ := md4_update_spec P ctx data hne
    have : c2 = c1 := Option.some.inj (hc2.symm.trans hc1)
    subst this
    refine ⟨c2, _, hc2, h1, U.trace_eq, ?_⟩
    have hpe := h.pending_eq
    have hlt : ctx.lo % 64 < 64 := Nat.mod_lt _ (by decide)
    have hq : 64 * (m.length / 64) ≤ m.length := Nat.mul_div_le _ _
    have hml : (m.take (64 * (m.length / 64))).length = 64 * (m.length / 64) := by
      rw [List.length_take]; omega
    have hdl : (m.drop (64 * (m.length / 64))).length = m.length % 64 := by
      rw [List.length_drop]; omega
    have hsplit : m ++ data = m.take (64 * (m.length / 64)) ++ (pending ctx ++ data) := by
      rw [hpe, ← List.append_assoc, List.take_append_drop]
    have hxl : (pending ctx ++ data).length = m.length % 64 + data.length := by
      rw [List.length_append, hpe, hdl]
    have hk : (m ++ data).length / 64 = m.length / 64 + (pending ctx ++ data).length / 64 := by
      rw [hxl, List.length_append]; omega
    rw [compressed_blocks_update _ _ _ (pending_length ctx) hlt, hk, chunks64_take _ m hq,
      hsplit, chunks64_append _ _ _ _ hml]

theorem absorbed_updates_trace (P : Platform) (chunks : List (List Byte)) :
    ∀ (ctx : md4_context) (m : List Byte), Absorbed P ctx m →
      ∃ ctx' ev, md4_updates P ctx chunks = some ctx' ∧
        Absorbed P ctx' (m ++ chunks.flatten) ∧ ctx'.trace = ctx.trace ++ ev ∧
        chunks64 (m.length / 64) m ++ compressed_blocks ev =
          chunks64 ((m ++ chunks.flatten).length / 64) (m ++ chunks.flatten) := by
  induction chunks with
  | nil =>
    intro ctx m h
    refine ⟨ctx, [], rfl, by simpa using h, by rw [List.append_nil], ?_⟩
    simp [compressed_blocks]
  | cons c cs ih =>
    intro ctx m h
    obtain ⟨c1, ev1, hc1, h1, ht1, hb1⟩ := absorbed_update_trace P ctx m c h
    obtain ⟨c2, ev2, hc2, h2, ht2, hb2⟩ := ih c1 (m ++ c) h1
    refine ⟨c2, ev1 ++ ev2, ?_, ?_, ?_, ?_⟩
    · simp only [md4_updates, hc1, Option.some_bind, hc2]
    · simpa [List.append_assoc] using h2
    · rw [ht2, ht1, List.append_assoc]
    · rw [compressed_blocks_append, ← List.append_assoc, hb1, hb2]
      simp [List.append_assoc]

theorem streamed_blocks (P : Platform) (ctx : md4_context) (chunks : List (List Byte)) :
    ∃ c ev, md4_updates P (md4_init ctx) chunks = some c ∧ Absorbed P c chunks.flatten ∧
      c.trace = ctx.trace ++ ev ∧
      compressed_blocks ev = chunks64 (chunks.flatten.length / 64) chunks.flatten := by
  obtain ⟨c, ev, hc, h, ht, hb⟩ :=
    absorbed_updates_trace P chunks (md4_init ctx) [] (absorbed_init P ctx)
  rw [List.nil_append] at h hb
  refine ⟨c, ev, hc, h, ht, ?_⟩
  simpa [chunks64] using hb

/-! ## Auxiliary facts for the claims on single calls -/

theorem md4_update_trace (P : Platform) (ctx : md4_context) (data : List Byte) :
    ∃ ctx', md4_update P ctx data = some ctx' ∧
      ctx'.trace = ctx.trace ++ update_trace (ctx.lo % 64) (pending ctx) data := by
  by_cases hne : data = []
  · subst hne
    exact ⟨ctx, by simp [md4_update], by simp [update_trace]⟩
  · obtain ⟨c, hc, U⟩ := md4_update_spec P ctx data hne
    exact ⟨c, hc, U.trace_eq⟩

theorem md4_update_partial (P : Platform) (ctx : md4_context) (data : List Byte)
    (hne : data ≠ []) (hfit : ctx.lo % 64 + data.length < 64) :
    ∃ ctx', md4_update P ctx data = some ctx' ∧ regs ctx' = regs ctx ∧
      ctx'.trace = ctx.trace ++ [Event.write (ctx.lo % 64) data.length] ∧
      ctx'.buffer.val.take (ctx.lo % 64) = ctx.buffer.val.take (ctx.lo % 64) ∧
      (ctx'.buffer.val.drop (ctx.lo % 64)).take data.length = data := by
  obtain ⟨c, hc, U⟩ := md4_update_spec P ctx data hne
  have hp := pending_length ctx
  have hsz : data.length ≠ 0 := by
    intro h; exact hne (List.length_eq_zero.mp h)
  have hxl : (pending ctx ++ data).length = ctx.lo % 64 + data.length := by
    rw [List.length_append, hp]
  have hk : (pending ctx ++ data).length / 64 = 0 := by rw [hxl]; omega
  have hm : (pending ctx ++ data).length % 64 = ctx.lo % 64 + data.length := by
    rw [hxl]; omega
  have hb := U.buf_eq
  rw [hm, hk, Nat.mul_zero, List.drop_zero] at hb
  refine ⟨c, hc, ?_, ?_, ?_, ?_⟩
  · rw [U.regs_eq, if_pos hk]
  · rw [U.trace_eq]
    congr 1
    unfold update_trace update_rest_trace
    rw [if_neg hsz]
    by_cases hu : ctx.lo % 64 = 0
    · rw [if_pos hu, if_neg (by omega), hu]
    · rw [if_neg hu, if_pos (by omega)]
  · have h1 : (c.buffer.val.take (ctx.lo % 64 + data.length)).take (ctx.lo % 64) =
        c.buffer.val.take (ctx.lo % 64) := by
      rw [List.take_take, Nat.min_eq_left (by omega)]
    rw [← h1, hb]
    exact List.take_left' hp
  · rw [List.take_drop, hb]
    exact List.drop_left' hp

theorem regs_fields {c c' : md4_context} (h : regs c' = regs c) :
    c'.a = c.a ∧ c'.b = c.b ∧ c'.c = c.c ∧ c'.d = c.d := by
  simp only [regs, Regs.mk.injEq] at h
  exact h

theorem body_compose (P : Platform) (ctx : md4_context) (x y : List Byte) (j k : Nat)
    (hj : 0 < j) (hk : 0 < k) (hx : x.length = 64 * j) (hy : y.length = 64 * k) :
    ∃ c1 c2 c3, body P ctx (x ++ y) (64 * (j + k)) = some (c1, []) ∧
      body P ctx x (64 * j) = some (c2, []) ∧ body P c2 y (64 * k) = some (c3, []) ∧
      regs c1 = regs c3 ∧ regs c1 = absorb P (j + k) (regs32 ctx) (x ++ y) ∧
      c1.lo = c3.lo ∧ c1.hi = c3.hi ∧ c1.buffer = c3.buffer := by
  obtain ⟨c1, h1, C1⟩ := body_spec' P ctx (x ++ y) (j + k) (by omega)
    (by rw [List.length_append]; omega)
  obtain ⟨c2, h2, C2⟩ := body_spec' P ctx x j hj (by omega)
  obtain ⟨c3, h3, C3⟩ := body_spec' P c2 y k hk (by omega)
  have d1 : (x ++ y).drop (64 * (j + k)) = [] :=
    List.drop_of_length_le (by rw [List.length_append]; omega)
  have d2 : x.drop (64 * j) = [] := List.drop_of_length_le (by omega)
  have d3 : y.drop (64 * k) = [] := List.drop_of_length_le (by omega)
  rw [d1] at h1
  rw [d2] at h2
  rw [d3] at h3
  have hb : (regs c2).bounded := by rw [C2.regs_eq]; exact absorb_bounded P j _ _ hj
  refine ⟨c1, c2, c3, h1, h2, h3, ?_, C1.regs_eq, ?_, ?_, ?_⟩
  · rw [C1.regs_eq, C3.regs_eq, regs32_of_bounded c2 hb, C2.regs_eq, absorb_append P j k _ x y hx]
  · rw [C1.lo_eq, C3.lo_eq, C2.lo_eq]
  · rw [C1.hi_eq, C3.hi_eq, C2.hi_eq]
  · rw [C1.buffer_eq, C3.buffer_eq, C2.buffer_eq]

theorem final_free_no_wrap (P : Platform) (used : Nat) (hu : used < 64) :
    wsub P 64 (used + 1) = 63 - used ∧
    wsub P (if 63 - used < 8 then 64 else 63 - used) 8 + 8 =
      (if 63 - used < 8 then 64 else 63 - used) := by
  constructor
  · rw [wsub_of_le P (by omega)]; omega
  · split
    · rw [wsub_of_le P (by omega)]
    · rw [wsub_of_le P (by omega)]; omega

theorem writes_of_final_ok (used : Nat) (x : List Byte) (hu : used < 64) :
    (writes_of (final_trace used x)).all write_ok = true := by
  rw [writes_of_final]
  split
  · simp only [List.all_cons, List.all_nil, Bool.and_true, write_ok, decide_eq_true_eq,
      Bool.and_eq_true]
    omega
  · simp only [List.all_cons, List.all_nil, Bool.and_true, write_ok, decide_eq_true_eq,
      Bool.and_eq_true]
    omega

/-! ## The claims on the transform, single calls and the trace -/

/-- C11: the word loader. For every block and every index `n` below 16, the word
`SET(n)` produces is `byte[4n] + 2^8 byte[4n+1] + 2^16 byte[4n+2] + 2^24 byte[4n+3]`,
it is below `2 ^ 32`, `GET(n)` reads the same word back, right after `SET(n)` and
after the whole of round 1, and the byte-by-byte assembly equals the direct
little-endian 32-bit load. -/
theorem word_loader_little_endian (P : Platform) (r : Regs) (block : Fin 16 → Nat)
    (ptr : List Byte) (n : Fin 16) :
    (SET P block ptr n).1 =
      (ptr.getD (4 * n.val) 0).val + 2 ^ 8 * (ptr.getD (4 * n.val + 1) 0).val
        + 2 ^ 16 * (ptr.getD (4 * n.val + 2) 0).val
        + 2 ^ 24 * (ptr.getD (4 * n.val + 3) 0).val ∧
    (SET P block ptr n).1 < 2 ^ 32 ∧
    GET P (SET P block ptr n).2 ptr n = (SET P block ptr n).1 ∧
    GET P (round1 P r block ptr).2 ptr n = (SET P block ptr n).1 ∧
    assemble_le32 ptr n.val = load_le32 ptr n.val := by
  refine ⟨?_, ?_, GET_SET P block ptr n, ?_, assemble_eq_load ptr n.val⟩
  · rw [SET_fst, ← le_word_eq_load]; rfl
  · rw [SET_fst]; exact load_le32_lt ptr n.val
  · rw [SET_fst]; exact GET_round1 P r block ptr n

/-- C12: one iteration of the loop of `body` is the tabulated compression of the
spec: three rounds of sixteen steps `w <- rotl32 (w + f (x, y, z) + X[idx] + k, s)`
with the functions, constants, word orders and rotations of section 4.2, then the
saved words added back modulo `2 ^ 32`. -/
theorem body_iteration_is_tabulated (P : Platform) (r : Regs) (block : Fin 16 → Nat)
    (blk : List Byte) :
    (body_block P r block blk).1 =
      (let s1 := spec_round F 0 (List.range 16) [3, 7, 11, 19] (le_word blk) r
       let s2 := spec_round spec_majority 0x5A827999
         [0, 4, 8, 12, 1, 5, 9, 13, 2, 6, 10, 14, 3, 7, 11, 15] [3, 5, 9, 13] (le_word blk) s1
       let s3 := spec_round spec_parity 0x6ED9EBA1
         [0, 8, 4, 12, 2, 10, 6, 14, 1, 9, 5, 13, 3, 11, 7, 15] [3, 9, 11, 15] (le_word blk) s2
       (⟨(s3.a + r.a) % 2 ^ 32, (s3.b + r.b) % 2 ^ 32, (s3.c + r.c) % 2 ^ 32,
         (s3.d + r.d) % 2 ^ 32⟩ : Regs)) :=
  body_block_eq_spec P r block blk

/-- C13: on 32-bit words the coded `F (x, y, z) = z ^ (x & (y ^ z))` is the selection
function `(x & y) | (~x & z)`. -/
theorem F_is_selection (x y z : Nat) (hx : x < 2 ^ 32) (hy : y < 2 ^ 32) (hz : z < 2 ^ 32) :
    F x y z = (x &&& y) ||| ((0xffffffff - x) &&& z) ∧ F x y z < 2 ^ 32 := by
  refine ⟨F_eq_select x y z hx hz, ?_⟩
  unfold F
  exact Nat.xor_lt_two_pow hz (Nat.and_lt_two_pow _ (Nat.xor_lt_two_pow hy hz))

/-- C13, at a concrete input. -/
theorem F_is_selection_witness :
    (0x67452301 : Nat) < 2 ^ 32 ∧ (0xefcdab89 : Nat) < 2 ^ 32 ∧ (0x98badcfe : Nat) < 2 ^ 32 ∧
      (F 0x67452301 0xefcdab89 0x98badcfe =
        (0x67452301 &&& 0xefcdab89) ||| ((0xffffffff - 0x67452301) &&& 0x98badcfe) ∧
       F 0x67452301 0xefcdab89 0x98badcfe < 2 ^ 32) :=
  ⟨by decide, by decide, by decide,
    F_is_selection 0x67452301 0xefcdab89 0x98badcfe (by decide) (by decide) (by decide)⟩

/-- C14: an `md4_update` that does not complete a block. With `used = lo & 0x3f` and
non-empty data such that `used + |data| < 64`, the call returns, the state words
are unchanged, the only event is one write of `|data|` bytes at offset `used` (no
call of `body`, no block compressed), the first `used` buffer bytes are unchanged
and the next `|data|` are the data. -/
theorem md4_update_incomplete_block (P : Platform) (ctx : md4_context) (data : List Byte)
    (hne : data ≠ []) (hfit : (ctx.lo &&& 0x3f) + data.length < 64) :
    ∃ ctx', md4_update P ctx data = some ctx' ∧
      ctx'.a = ctx.a ∧ ctx'.b = ctx.b ∧ ctx'.c = ctx.c ∧ ctx'.d = ctx.d ∧
      ctx'.trace = ctx.trace ++ [Event.write (ctx.lo &&& 0x3f) data.length] ∧
      ctx'.buffer.val.take (ctx.lo &&& 0x3f) = ctx.buffer.val.take (ctx.lo &&& 0x3f) ∧
      (ctx'.buffer.val.drop (ctx.lo &&& 0x3f)).take data.length = data := by
  rw [and_0x3f] at hfit ⊢
  obtain ⟨c, hc, hr, ht, hb1, hb2⟩ := md4_update_partial P ctx data hne hfit
  obtain ⟨ha, hb, hcc, hd⟩ := regs_fields hr
  exact ⟨c, hc, ha, hb, hcc, hd, ht, hb1, hb2⟩

/-- C14, at a concrete input: three bytes into an empty buffer. -/
theorem md4_update_incomplete_block_witness :
    ∃ ctx', md4_update lp64 zero_context (ascii "abc") = some ctx' ∧
      ctx'.a = 0 ∧ (ctx'.buffer.val.drop 0).take 3 = ascii "abc" := by
  obtain ⟨c, hc, ha, _, _, _, _, _, hb⟩ :=
    md4_update_incomplete_block lp64 zero_context (ascii "abc") (by decide) (by decide)
  exact ⟨c, hc, ha, hb⟩

/-- C15: two-block padding. With `used = lo & 0x3f`, `md4_final` compresses exactly
one block when `used <= 55`, namely `buffer[0..used) ++ [0x80] ++ zeros ++ length`,
and exactly two when `used >= 56`, first `buffer[0..used) ++ [0x80] ++ zeros`,
then 56 zero bytes followed by the eight length bytes; each by one call of `body`
on the buffer. After a message of `n` bytes that is one block when
`n mod 64 <= 55` (so for 55 bytes) and two otherwise (so for 56 bytes). -/
theorem md4_final_block_count (P : Platform) (ctx : md4_context) (chunks : List (List Byte)) :
    (∃ digest ctx' ev, md4_final P ctx = some (digest, ctx') ∧ ctx'.trace = ctx.trace ++ ev ∧
      compressed_blocks ev =
        (if (ctx.lo &&& 0x3f) ≤ 55 then
          [ctx.buffer.val.take (ctx.lo &&& 0x3f) ++ [0x80] ++
            List.replicate (55 - (ctx.lo &&& 0x3f)) 0 ++ length_bytes P ctx]
        else
          [ctx.buffer.val.take (ctx.lo &&& 0x3f) ++ [0x80] ++
            List.replicate (63 - (ctx.lo &&& 0x3f)) 0,
           List.replicate 56 0 ++ length_bytes P ctx]) ∧
      calls_of ev = (if (ctx.lo &&& 0x3f) ≤ 55 then [(64, 64)] else [(64, 64), (64, 64)])) ∧
    (∃ c digest c' ev, md4_updates P (md4_init ctx) chunks = some c ∧
      md4_final P c = some (digest, c') ∧ c'.trace = c.trace ++ ev ∧
      (compressed_blocks ev).length = if chunks.flatten.length % 64 ≤ 55 then 1 else 2) := by
  constructor
  · obtain ⟨d, c', hf, ht⟩ := md4_final_trace P ctx
    refine ⟨d, c', _, hf, ht, ?_, ?_⟩
    · rw [compressed_blocks_final, and_0x3f]
      by_cases h : ctx.lo % 64 < 56
      · rw [if_pos h, if_pos (by omega), final_input_one_block P ctx h]
        rfl
      · obtain ⟨e1, e2⟩ := final_input_two_blocks P ctx h
        rw [if_neg h, if_neg (by omega), e1, e2]
        rfl
    · rw [calls_of_final, and_0x3f]
      by_cases h : ctx.lo % 64 < 56
      · rw [if_pos h, if_pos (by omega)]
      · rw [if_neg h, if_neg (by omega)]
  · obtain ⟨c, hc, h⟩ := absorbed_of_chunks P ctx chunks
    obtain ⟨d, c', hf, ht⟩ := md4_final_trace P c
    refine ⟨c, d, c', _, hc, hf, ht, ?_⟩
    have hlo : c.lo % 64 = chunks.flatten.length % 64 := by rw [h.lo_eq]; omega
    rw [compressed_blocks_final, hlo]
    by_cases hu : chunks.flatten.length % 64 < 56
    · rw [if_pos hu, if_pos (by omega)]; rfl
    · rw [if_neg hu, if_neg (by omega)]; rfl

/-- C16: multi-block composition. For inputs `x` and `y` whose lengths are non-zero
multiples of 64, one call of `body` over `x ++ y` leaves the same state words (and
the same counter and buffer) as a call over `x` followed by a call over `y`, and
that state is the compression transform folded over the blocks of `x ++ y`. -/
theorem body_multi_block_composition (P : Platform) (ctx : md4_context) (x y : List Byte)
    (hx : x.length % 64 = 0) (hx0 : x.length ≠ 0) (hy : y.length % 64 = 0)
    (hy0 : y.length ≠ 0) :
    ∃ c1 c2 c3, body P ctx (x ++ y) (x ++ y).length = some (c1, []) ∧
      body P ctx x x.length = some (c2, []) ∧ body P c2 y y.length = some (c3, []) ∧
      c1.a = c3.a ∧ c1.b = c3.b ∧ c1.c = c3.c ∧ c1.d = c3.d ∧
      regs c1 = (split_blocks (x ++ y)).foldl (md4_compress P) (regs32 ctx) ∧
      c1.lo = c3.lo ∧ c1.hi = c3.hi ∧ c1.buffer = c3.buffer := by
  have ex : x.length = 64 * (x.length / 64) := by omega
  have ey : y.length = 64 * (y.length / 64) := by omega
  have exy : (x ++ y).length = 64 * (x.length / 64 + y.length / 64) := by
    rw [List.length_append]; omega
  have hdiv : (x ++ y).length / 64 = x.length / 64 + y.length / 64 := by omega
  obtain ⟨c1, c2, c3, h1, h2, h3, hr, hr1, hlo, hhi, hbuf⟩ :=
    body_compose P ctx x y (x.length / 64) (y.length / 64) (by omega) (by omega) ex ey
  obtain ⟨ha, hb, hc, hd⟩ := regs_fields hr
  refine ⟨c1, c2, c3, ?_, ?_, ?_, ha, hb, hc, hd, ?_, hlo, hhi, hbuf⟩
  · rw [exy]; exact h1
  · rw [← ex] at h2; exact h2
  · rw [← ey] at h3; exact h3
  · rw [hr1, split_blocks, hdiv]; rfl

/-- C16, at a concrete input: two blocks of zero bytes. -/
theorem body_multi_block_composition_witness :
    ∃ c1 c3 : md4_context,
      body lp64 zero_context (List.replicate 64 0 ++ List.replicate 64 0) 128 =
        some (c1, []) ∧ c1.a = c3.a ∧ c1.b = c3.b ∧ c1.c = c3.c ∧ c1.d = c3.d := by
  obtain ⟨c1, _, c3, h1, _, _, ha, hb, hc, hd, _⟩ :=
    body_multi_block_composition lp64 zero_context (List.replicate 64 0) (List.replicate 64 0)
      (by decide) (by decide) (by decide) (by decide)
  exact ⟨c1, c3, h1, ha, hb, hc, hd⟩

/-- C17: under its precondition the loop of `body` terminates. For a `size` that is a
non-zero multiple of 64 and data with at least `size` readable bytes, `body`
returns; it performs exactly `size / 64` iterations (that many blocks in the trace,
and the loop returns with fuel `f` exactly when `size / 64 <= f`); the blocks it
reads are the bytes `0 .. size-1` of the data, on which alone the state depends;
the returned pointer is the data advanced by `size`; with fewer than `size`
readable bytes it would read out of bounds. -/
theorem body_loop_terminates (P : Platform) (ctx : md4_context) (data : List Byte)
    (size : Nat) (hs : size % 64 = 0) (hs0 : size ≠ 0) (hlen : size ≤ data.length) :
    ∃ ctx', body P ctx data size = some (ctx', data.drop size) ∧
      ctx'.trace = ctx.trace ++
        Event.call data.length size :: (chunks64 (size / 64) data).map Event.compress ∧
      (chunks64 (size / 64) data).length = size / 64 ∧
      (chunks64 (size / 64) data).flatten = data.take size ∧
      regs ctx' = absorb P (size / 64) (regs32 ctx) (data.take size) ∧
      (∀ fuel r c, (body_loop P fuel r c data size).isSome = decide (size / 64 ≤ fuel)) ∧
      ∀ short : List Byte, short.length < size → body P ctx short size = none := by
  obtain ⟨j, hj⟩ : ∃ j, size / 64 = j + 1 := ⟨size / 64 - 1, by omega⟩
  have es : size = 64 * (j + 1) := by omega
  subst es
  have hk : 64 * (j + 1) / 64 = j + 1 := by omega
  rw [hk]
  obtain ⟨c, hc, C⟩ := body_spec' P ctx data (j + 1) (by omega) hlen
  refine ⟨c, hc, C.trace_eq, chunks64_len _ _, chunks64_flatten_take _ _ hlen, ?_, ?_, ?_⟩
  · rw [C.regs_eq]; exact absorb_take P _ _ _ hlen
  · intro fuel r c0
    exact body_loop_isSome P j fuel r c0 data hlen
  · intro short hshort
    exact body_short P ctx short (j + 1) (by omega) hshort

/-- C17, at a concrete input: one block out of 64 readable bytes. -/
theorem body_loop_terminates_witness :
    ∃ ctx', body lp64 zero_context (List.replicate 64 0) 64 = some (ctx', []) := by
  obtain ⟨c, hc, _⟩ := body_loop_terminates lp64 zero_context (List.replicate 64 0) 64
    (by decide) (by decide) (by decide)
  exact ⟨c, hc⟩

/-- C18: every call of `body` made by `md4_update` and by `md4_final`, on every
context and every data, satisfies the precondition of `body`: the size is a
non-zero multiple of 64 and at most the bytes readable at the source; the source
is the 64-byte buffer with size 64, or at least 64 bytes of caller data with size
`size & ~0x3f`. -/
theorem body_calls_meet_precondition (P : Platform) (ctx : md4_context) (data : List Byte) :
    (∃ ctx' ev, md4_update P ctx data = some ctx' ∧ ctx'.trace = ctx.trace ++ ev ∧
      (calls_of ev).all call_ok = true ∧ (calls_of ev).all call_shape = true) ∧
    (∃ digest ctx' ev, md4_final P ctx = some (digest, ctx') ∧ ctx'.trace = ctx.trace ++ ev ∧
      (calls_of ev).all call_ok = true ∧
      (calls_of ev).all (fun c => decide (c = (64, 64))) = true) := by
  constructor
  · obtain ⟨c, hc, ht⟩ := md4_update_trace P ctx data
    obtain ⟨h1, h2⟩ := calls_of_update_ok (ctx.lo % 64) (pending ctx) data
    exact ⟨c, _, hc, ht, h1, h2⟩
  · obtain ⟨d, c', hf, ht⟩ := md4_final_trace P ctx
    refine ⟨d, c', _, hf, ht, ?_, ?_⟩ <;>
    · rw [calls_of_final]
      split <;> decide

/-- C19: all buffer accesses stay inside the 64-byte buffer and no length
underflows, for every context and every data. `md4_update` returns, and its copies
into the buffer are: none for empty data; the rest of the data at offset 0 when
the buffer is empty; the data at offset `used` when it fits; otherwise `64 - used`
bytes at offset `used` and the rest (fewer than 64 bytes) at offset 0.
`md4_final` returns, writes `0x80` at offset `used <= 63`, zero-fills up to offset
56 when `used + 1 <= 56`, else up to offset 64 and then from 0 to 56, and stores
the length bytes at offsets 56 to 63; `64 - (used + 1)` and `free - 8` do not
wrap. -/
theorem buffer_accesses_in_bounds (P : Platform) (ctx : md4_context) (data : List Byte) :
    (∃ ctx' ev, md4_update P ctx data = some ctx' ∧ ctx'.trace = ctx.trace ++ ev ∧
      writes_of ev =
        (if data.length = 0 then []
         else if (ctx.lo &&& 0x3f) = 0 then [(0, data.length % 64)]
         else if data.length < 64 - (ctx.lo &&& 0x3f) then [(ctx.lo &&& 0x3f, data.length)]
         else [(ctx.lo &&& 0x3f, 64 - (ctx.lo &&& 0x3f)),
               (0, (data.length - (64 - (ctx.lo &&& 0x3f))) % 64)]) ∧
      (writes_of ev).all write_ok = true) ∧
    (∃ digest ctx' ev, md4_final P ctx = some (digest, ctx') ∧ ctx'.trace = ctx.trace ++ ev ∧
      writes_of ev =
        (if (ctx.lo &&& 0x3f) + 1 ≤ 56 then
          [(ctx.lo &&& 0x3f, 1), ((ctx.lo &&& 0x3f) + 1, 56 - ((ctx.lo &&& 0x3f) + 1)),
            (56, 1), (57, 1), (58, 1), (59, 1), (60, 1), (61, 1), (62, 1), (63, 1)]
         else
          [(ctx.lo &&& 0x3f, 1), ((ctx.lo &&& 0x3f) + 1, 64 - ((ctx.lo &&& 0x3f) + 1)),
            (0, 56), (56, 1), (57, 1), (58, 1), (59, 1), (60, 1), (61, 1), (62, 1), (63, 1)]) ∧
      (writes_of ev).all write_ok = true) ∧
    (ctx.lo &&& 0x3f) ≤ 63 ∧
    wsub P 64 ((ctx.lo &&& 0x3f) + 1) = 63 - (ctx.lo &&& 0x3f) ∧
    wsub P (if 63 - (ctx.lo &&& 0x3f) < 8 then 64 else 63 - (ctx.lo &&& 0x3f)) 8 + 8 =
      (if 63 - (ctx.lo &&& 0x3f) < 8 then 64 else 63 - (ctx.lo &&& 0x3f)) := by
  have hlt : ctx.lo % 64 < 64 := Nat.mod_lt _ (by decide)
  rw [and_0x3f]
  obtain ⟨w1, w2⟩ := final_free_no_wrap P (ctx.lo % 64) hlt
  refine ⟨?_, ?_, by omega, w1, w2⟩
  · obtain ⟨c, hc, ht⟩ := md4_update_trace P ctx data
    refine ⟨c, _, hc, ht, ?_, writes_of_update_ok _ _ _ hlt⟩
    rw [writes_of_update, List.length_drop]
  · obtain ⟨d, c', hf, ht⟩ := md4_final_trace P ctx
    refine ⟨d, c', _, hf, ht, ?_, writes_of_final_ok _ _ hlt⟩
    rw [writes_of_final]
    by_cases h : ctx.lo % 64 < 56
    · rw [if_pos h, if_pos (by omega)]
    · have h63 : 63 - ctx.lo % 64 = 64 - (ctx.lo % 64 + 1) := by omega
      rw [if_neg h, if_neg (by omega), h63]

/-- C20: the streaming state invariant. After `md4_init` and `md4_update` calls whose
data concatenates to `m`, the state words are the compression transform folded,
from the initial state, over the first `|m| / 64` blocks of `m`; the blocks
compressed since `md4_init` are exactly those blocks, each once and in order, and
they are made of the first `64 * (|m| / 64)` bytes of `m`, so no byte of an
incomplete block is among them. -/
theorem md4_streaming_state (P : Platform) (ctx : md4_context) (chunks : List (List Byte)) :
    ∃ c ev, md4_updates P (md4_init ctx) chunks = some c ∧
      (⟨c.a, c.b, c.c, c.d⟩ : Regs) =
        (chunks64 (chunks.flatten.length / 64) chunks.flatten).foldl (md4_compress P)
          ⟨0x67452301, 0xefcdab89, 0x98badcfe, 0x10325476⟩ ∧
      c.trace = ctx.trace ++ ev ∧
      compressed_blocks ev = chunks64 (chunks.flatten.length / 64) chunks.flatten ∧
      (chunks64 (chunks.flatten.length / 64) chunks.flatten).length =
        chunks.flatten.length / 64 ∧
      (chunks64 (chunks.flatten.length / 64) chunks.flatten).flatten =
        chunks.flatten.take (64 * (chunks.flatten.length / 64)) := by
  obtain ⟨c, ev, hc, h, ht, hb⟩ := streamed_blocks P ctx chunks
  exact ⟨c, ev, hc, h.regs_eq, ht, hb, chunks64_len _ _,
    chunks64_flatten_take _ _ (Nat.mul_div_le _ _)⟩

end MD4
